import Mathlib

/-!
Verification development for the release-engineering helper scripts of the
repository (``.github/scripts/prepare_documentation.py``,
``.github/scripts/patch_doxyfile.py``, ``.github/scripts/check_version.py``).

The Python scripts are shallowly embedded: every string-processing function is
translated to an executable Lean function over `List Char` (Python `str`
values), Python exceptions become `Option`/`none`, and the regular-expression
searches used by the scripts are embedded by operational models that follow
the Python ``re`` engine (leftmost match position, greedy quantifiers with
backtracking, `re.MULTILINE` anchoring of ``^`` at offset 0 and after each
newline).
-/

namespace DocScripts

/-- ASCII decimal digit test, `c ∈ '0'..'9'` (Python `\d` for the ASCII texts
handled by the scripts). -/
def isDigitChar (c : Char) : Bool := 48 ≤ c.toNat && c.toNat ≤ 57

/-- Python `\s` (ASCII whitespace: space, tab, newline, CR, FF, VT). -/
def isWsChar (c : Char) : Bool :=
  c = ' ' || c = '\t' || c = '\n' || c = '\r' || c = '\x0b' || c = '\x0c'

/-- Value of a decimal digit string, `int(s)` on an all-digit string. -/
def digitsToNat (l : List Char) : Nat :=
  l.foldl (fun a c => a * 10 + (c.toNat - 48)) 0

/-- Python `int(s)` restricted to the plain nonempty digit strings that the
scripts feed it; `none` models the `ValueError` raised on anything else. -/
def parseNatDigits (l : List Char) : Option Nat :=
  if l ≠ [] ∧ l.all isDigitChar then some (digitsToNat l) else none

/-- Python `s.split('-')`: split at every `'-'`, keeping empty pieces. -/
def splitDash : List Char → List (List Char)
  | [] => [[]]
  | c :: rest =>
    if c = '-' then [] :: splitDash rest
    else
      match splitDash rest with
      | [] => [[c]]
      | h :: t => (c :: h) :: t

/-- Python `s.split("rc")`: split at every non-overlapping occurrence of the
two-character separator `"rc"`, scanning left to right. -/
def splitRc : List Char → List (List Char)
  | [] => [[]]
  | [c] => [[c]]
  | c₁ :: c₂ :: rest =>
    if c₁ = 'r' ∧ c₂ = 'c' then [] :: splitRc rest
    else
      match splitRc (c₂ :: rest) with
      | [] => [[c₁]]
      | h :: t => (c₁ :: h) :: t

/-- `pat` occurs as a prefix of `l` (character-exact). -/
def startsWithL : List Char → List Char → Bool
  | [], _ => true
  | _ :: _, [] => false
  | p :: ps, c :: cs => p = c && startsWithL ps cs

/-- Python `pat in s`: `pat` occurs as a contiguous substring of `l`. -/
def containsSub : List Char → List Char → Bool
  | [], pat => startsWithL pat []
  | c :: rest, pat => startsWithL pat (c :: rest) || containsSub rest pat

/-- Python `s.endswith(pat)`. -/
def endsWithL (l pat : List Char) : Bool := startsWithL pat.reverse l.reverse

/-- The characters of `"SNAPSHOT"`. -/
def SNAPU : List Char := ['S', 'N', 'A', 'P', 'S', 'H', 'O', 'T']

/-- The characters of `"-SNAPSHOT"`. -/
def SNAPTAIL : List Char := '-' :: SNAPU

/-- Python `s.endswith("-SNAPSHOT")`, the snapshot test used by
`prepare_documentation`. -/
def endsWithSnap (l : List Char) : Bool := endsWithL l SNAPTAIL

/-- Match a literal character sequence under `re.IGNORECASE` (ASCII case
folding), returning the rest. -/
def stripLitCi : List Char → List Char → Option (List Char)
  | [], l => some l
  | _ :: _, [] => none
  | p :: ps, c :: cs => if c.toLower = p.toLower then stripLitCi ps cs else none

/-- `[a-z0-9]` under `re.IGNORECASE`: ASCII letter or digit. -/
def isAlphaNumChar (c : Char) : Bool :=
  isDigitChar c || (97 ≤ c.toLower.toNat && c.toLower.toNat ≤ 122)

/-- All remainders reachable by continuing from any remainder in `xs` with
`f` (set-of-continuations semantics for regex alternation and optional
groups: an input is accepted iff some branch's remainder is accepted). -/
def collect (xs : List (List Char)) (f : List Char → List (List Char)) :
    List (List Char) :=
  (xs.map f).flatten

/-- `[-_\.]?`: skip, or consume one separator character. -/
def sepOpts (l : List Char) : List (List Char) :=
  l :: (match l with
    | c :: rest => if c = '-' || c = '_' || c = '.' then [rest] else []
    | [] => [])

/-- `([0-9]+)?`: skip, or consume the whole greedy digit run.  Giving back
part of the run is never listed because it can never help: everything that
can follow a number in the version pattern (a separator or letter of the
next group, `+`, `\s*$`) rejects a leading digit. -/
def numOpts (l : List Char) : List (List Char) :=
  l :: (if l.takeWhile isDigitChar = [] then [] else [l.dropWhile isDigitChar])

/-- An alternation of case-insensitive literal labels: the remainders of
every branch that matches (regex alternation keeps all branches alive for
backtracking, so acceptance needs all of them). -/
def labelOpts (labs : List (List Char)) (l : List Char) : List (List Char) :=
  (labs.map (fun lab =>
    match stripLitCi lab l with
    | some r => [r]
    | none => [])).flatten

/-- `([-_\.]? (L1|...|Ln) [-_\.]? ([0-9]+)?)?` — the optional-group shape
shared by the pre-release, letter-form post-release and dev-release groups
of the PEP 440 pattern. -/
def groupOpts (labs : List (List Char)) (l : List Char) : List (List Char) :=
  l :: collect (sepOpts l)
    (fun r1 => collect (labelOpts labs r1)
      (fun r2 => collect (sepOpts r2) numOpts))

/-- The pre-release group, labels `alpha|a|b|beta|c|preview|pre|rc`. -/
def preOpts (l : List Char) : List (List Char) :=
  groupOpts [['a', 'l', 'p', 'h', 'a'], ['a'], ['b'], ['b', 'e', 't', 'a'],
    ['c'], ['p', 'r', 'e', 'v', 'i', 'e', 'w'], ['p', 'r', 'e'],
    ['r', 'c']] l

/-- The post-release group
`((-([0-9]+)) | ([-_\.]? (post|rev|r) [-_\.]? ([0-9]+)?))?`: the letter
form via `groupOpts`, plus the bare `-N` form. -/
def postOpts (l : List Char) : List (List Char) :=
  groupOpts [['p', 'o', 's', 't'], ['r', 'e', 'v'], ['r']] l ++
    (match l with
      | c :: rest =>
        if c = '-' then
          (if rest.takeWhile isDigitChar = [] then []
            else [rest.dropWhile isDigitChar])
        else []
      | [] => [])

/-- The dev-release group, label `dev`. -/
def devOpts (l : List Char) : List (List Char) :=
  groupOpts [['d', 'e', 'v']] l

/-- Greedy `([-_\.][a-z0-9]+)*` inside a local version label: the final
remainder (fuelled; any fuel `≥` input length suffices).  The loop never
gives a chunk back: the only continuation, `\s*$`, rejects both a separator
and an alphanumeric, so giving back cannot help. -/
def localSegs : Nat → List Char → List Char
  | 0, l => l
  | _ + 1, [] => []
  | n + 1, c :: rest =>
    if c = '-' || c = '_' || c = '.' then
      (if rest.takeWhile isAlphaNumChar = [] then c :: rest
        else localSegs n (rest.dropWhile isAlphaNumChar))
    else c :: rest

/-- `(\+[a-z0-9]+([-_\.][a-z0-9]+)*)?`: the optional local version label. -/
def localOpts (l : List Char) : List (List Char) :=
  l :: (match l with
    | c :: rest =>
      if c = '+' then
        (if rest.takeWhile isAlphaNumChar = [] then []
          else [localSegs rest.length (rest.dropWhile isAlphaNumChar)])
      else []
    | [] => [])

/-- Does `pre? post? dev? local? \s*$` accept the text after the release
segment?  Each group contributes its full set of remainders, so acceptance
coincides with the backtracking regex engine's. -/
def pep440RestOk (r : List Char) : Bool :=
  (preOpts r).any (fun r1 =>
    (postOpts r1).any (fun r2 =>
      (devOpts r2).any (fun r3 =>
        (localOpts r3).any (fun r4 => r4.all isWsChar))))

/-- Greedy `(\.[0-9]+)*` of the release segment: the dot-separated digit
runs and the remaining input (fuelled; any fuel `≥` input length suffices).
The run is deterministic: no later group of the pattern can consume a
leading digit or a `.digit` chunk the run would give back, so the regex
never backtracks into it. -/
def dotRuns : Nat → List Char → List (List Char) × List Char
  | 0, l => ([], l)
  | _ + 1, [] => ([], [])
  | n + 1, c :: rest =>
    if c = '.' then
      (if rest.takeWhile isDigitChar = [] then ([], c :: rest)
        else (rest.takeWhile isDigitChar
            :: (dotRuns n (rest.dropWhile isDigitChar)).1,
          (dotRuns n (rest.dropWhile isDigitChar)).2))
    else ([], c :: rest)

/-- Leading `v?` (case-insensitive).  Taking a present `v` is forced: the
pattern after it starts with a digit. -/
def stripV : List Char → List Char
  | [] => []
  | c :: rest => if c = 'v' ∨ c = 'V' then rest else c :: rest

/-- `(([0-9]+)!)?` — the optional epoch.  Taking a present `digits !`
prefix is forced: nothing later in the pattern accepts the `!`. -/
def stripEpoch (l : List Char) : List Char :=
  if l.takeWhile isDigitChar = [] then l
  else if (l.dropWhile isDigitChar).headD ' ' = '!' then
    (l.dropWhile isDigitChar).tail
  else l

/-- `[0-9]+(\.[0-9]+)* pre? post? dev? local? \s*$` on the text left after
whitespace, `v` and epoch: the release is the greedy, deterministic digit
runs (see `dotRuns`), and the rest of the pattern is decided by
`pep440RestOk`.  On acceptance returns `Version.major/minor/micro`: the
first three release components, missing ones defaulting to 0. -/
def pep440Release (l : List Char) : Option (Nat × Nat × Nat) :=
  if l.takeWhile isDigitChar = [] then none
  else if pep440RestOk (dotRuns l.length (l.dropWhile isDigitChar)).2 then
    some (digitsToNat (l.takeWhile isDigitChar),
      digitsToNat ((dotRuns l.length (l.dropWhile isDigitChar)).1.headD []),
      digitsToNat
        (((dotRuns l.length (l.dropWhile isDigitChar)).1.drop 1).headD []))
  else none

/-- `packaging.version.parse(base).(major, minor, micro)` (packaging ≥ 22,
where `parse` returns a `Version` and raises the `InvalidVersion` that
`_get_version_key` catches on anything else).  `Version` accepts exactly
`^\s* v? (([0-9]+)!)? [0-9]+(\.[0-9]+)* pre? post? dev? (\+local)? \s*$`
under `re.IGNORECASE`.  The whitespace / `v` / epoch / release prefix is
deterministic (the regex can never backtrack out of it, as no later group
accepts what it would give back — see `stripV`, `stripEpoch`, `dotRuns`),
and the optional trailing groups are decided by the all-branches acceptor
`pep440RestOk`, so acceptance coincides with the Python engine's.  `none`
exactly on `InvalidVersion`. -/
def parseBase (l : List Char) : Option (Nat × Nat × Nat) :=
  pep440Release (stripEpoch (stripV (l.dropWhile isWsChar)))

/-- `DocumentationManager._get_version_key` (prepare_documentation.py,
lines 43-59).  Returns the Python tuple as a `List Nat` (Python tuples of
unequal length compare lexicographically, which list lexicographic order
reproduces).  `none` models an uncaught exception: only `InvalidVersion`
from the base-triple parse is caught (yielding the `(0, 0, 0, 999)`
sentinel); a `ValueError` from `int()` on the rc component would escape. -/
def getVersionKey (s : List Char) : Option (List Nat) :=
  match parseBase ((splitDash s).headD []) with
  | none => some [0, 0, 0, 999]
  | some (ma, mi, pa) =>
    let low := s.map Char.toLower
    if containsSub low ['r', 'c'] then
      match parseNatDigits ((splitDash (((splitRc low).tail).headD [])).headD []) with
      | none => none
      | some n =>
        if containsSub s SNAPU then some [ma, mi, pa, 0, n]
        else some [ma, mi, pa, 1, n]
    else if containsSub s SNAPU then some [ma, mi, pa, 2, 0]
    else some [ma, mi, pa, 3, 0]

/-- Python `<` on tuples of naturals (lexicographic, shorter tuple wins ties). -/
def keyLt : List Nat → List Nat → Bool
  | [], [] => false
  | [], _ :: _ => true
  | _ :: _, [] => false
  | x :: xs, y :: ys => decide (x < y) || (x = y && keyLt xs ys)

/-- Insert into an ascending list, after all entries whose key is `≤` the new
key (the placement a stable sort gives an element coming after them). -/
def insertV (x : List Char × List Nat) :
    List (List Char × List Nat) → List (List Char × List Nat)
  | [] => [x]
  | y :: ys => if keyLt y.2 x.2 then y :: insertV x ys else x :: y :: ys

/-- Stable ascending insertion sort; agrees with Python `sorted(versions,
key=...)` because stable ascending sorting is unique for a strict weak
order. -/
def isortV : List (List Char × List Nat) → List (List Char × List Nat)
  | [] => []
  | x :: xs => insertV x (isortV xs)

/-- Pair every name with its `_get_version_key`; `none` when any key
computation raises an uncaught exception (which aborts Python's `sorted`). -/
def attachKeys : List (List Char) → Option (List (List Char × List Nat))
  | [] => some []
  | s :: rest =>
    match getVersionKey s, attachKeys rest with
    | some k, some ps => some ((s, k) :: ps)
    | _, _ => none

/-- The most-recent-first listing of `_generate_versions_list` (lines
150-162): sort ascending by `_get_version_key`, then emit in reversed
order. -/
def mostRecentFirst (names : List (List Char)) : Option (List (List Char)) :=
  (attachKeys names).map (fun ps => ((isortV ps).map Prod.fst).reverse)

/-- The set of directories `prepare_documentation` deletes (lines 80-97),
as the sublist of `existing` that is removed: nothing when the incoming
version ends in `-SNAPSHOT`; otherwise exactly the directory named
`version + "-SNAPSHOT"` when present (the rc and non-rc branches of the
Python code perform the same deletion). -/
def toDelete (existing : List (List Char)) (version : List Char) :
    List (List Char) :=
  if endsWithSnap version then []
  else if containsSub version ['-', 'r', 'c'] then
    existing.filter (fun d => d = version ++ SNAPTAIL)
  else
    existing.filter (fun d => d = version ++ SNAPTAIL)

/-- The guard of the `latest`-symlink branch (line 115):
`not any(x in version for x in ["-SNAPSHOT", "-rc"])`. -/
def updatesLatest (version : List Char) : Bool :=
  !(containsSub version SNAPTAIL || containsSub version ['-', 'r', 'c'])

/-- One decimal digit run (greedy `\d+`): value and remaining input, `none`
when the input does not start with a digit. -/
def takeDigits (l : List Char) : Option (List Char × List Char) :=
  let ds := l.takeWhile isDigitChar
  if ds = [] then none else some (ds, l.dropWhile isDigitChar)

/-- Require one specific next character (used by the structured parsers). -/
def expectChar (ch : Char) : List Char → Option (List Char)
  | [] => none
  | c :: cs => if c = ch then some cs else none

/-- Structured parser for the directory-name pattern
`^\d+\.\d+\.\d+(?:-rc\d+)?(?:-SNAPSHOT)?$` (prepare_documentation.py line
15): on success returns the numeric base triple, the optional rc number and
the snapshot flag.  The regex's greedy `\d+` runs are maximal-munch, which
`takeDigits` reproduces, so acceptance coincides with the regex. -/
def parseTail (t : List Char) : Option (Option Nat × Bool) :=
  if t = [] then some (none, false)
  else if t = SNAPTAIL then some (none, true)
  else if startsWithL ['-', 'r', 'c'] t then
    match takeDigits (t.drop 3) with
    | none => none
    | some (ds, rest2) =>
      if rest2 = [] then some (some (digitsToNat ds), false)
      else if rest2 = SNAPTAIL then some (some (digitsToNat ds), true)
      else none
  else none

/-- Full-match decomposition of a version directory name: base triple,
optional rc number, snapshot flag (see `parseTail`). -/
def classify (s : List Char) : Option ((Nat × Nat × Nat) × Option Nat × Bool) :=
  match takeDigits s with
  | none => none
  | some (d1, r1) =>
    match expectChar '.' r1 with
    | none => none
    | some r1b =>
      match takeDigits r1b with
      | none => none
      | some (d2, r2) =>
        match expectChar '.' r2 with
        | none => none
        | some r2b =>
          match takeDigits r2b with
          | none => none
          | some (d3, r3) =>
            (parseTail r3).map
              (fun t => ((digitsToNat d1, digitsToNat d2, digitsToNat d3), t))

/-- `re.match` of the version-directory pattern, as a Boolean acceptor. -/
def versionPattern (s : List Char) : Bool := (classify s).isSome

/-- Match a literal character sequence (case-sensitive), returning the rest. -/
def stripLit : List Char → List Char → Option (List Char)
  | [], l => some l
  | _ :: _, [] => none
  | p :: ps, c :: cs => if c = p then stripLit ps cs else none

/-- Greedy `\s*`. -/
def dropWs (l : List Char) : List Char := l.dropWhile isWsChar

/-- `\d+\.\d+\.\d+` with greedy digit runs: the captured characters and the
remaining input. -/
def matchTriple (l : List Char) : Option (List Char × List Char) := do
  let (d1, r1) ← takeDigits l
  let r1b ← expectChar '.' r1
  let (d2, r2) ← takeDigits r1b
  let r2b ← expectChar '.' r2
  let (d3, r3) ← takeDigits r2b
  pure (d1 ++ '.' :: d2 ++ '.' :: d3, r3)

/-- `VERSION\s+(\d+\.\d+\.\d+)` at the head of the input (case-insensitive
`VERSION`), returning the captured triple text.  `\s+` is greedy but is
followed by a digit, so "one whitespace then skip all whitespace" is exact. -/
def matchVersionFrom (l : List Char) : Option (List Char) := do
  let r1 ← stripLitCi ['V', 'E', 'R', 'S', 'I', 'O', 'N'] l
  match r1 with
  | [] => none
  | c :: rest =>
    if isWsChar c then
      let (cap, _) ← matchTriple (dropWs rest)
      pure cap
    else none

/-- Try `f` at the suffixes `l.drop n`, `l.drop (n-1)`, ..., `l.drop 0`, in
that order: the backtracking of a greedy `*` quantifier that consumed `n`
characters at most. -/
def tryDescend (f : List Char → Option α) : Nat → List Char → Option α
  | 0, l => f l
  | n + 1, l =>
    match f (l.drop (n + 1)) with
    | some v => some v
    | none => tryDescend f n l

/-- `PROJECT\s*\([^)]*VERSION\s+(\d+\.\d+\.\d+)[^)]*\)` matched at the head
of the input (patch_doxyfile.py line 18, prepare_documentation.py line 25,
check_version.py line 18; `re.IGNORECASE`).  `[^)]*` cannot cross a `)`,
so a closing `)` must exist after the `(`; within the run of non-`)`
characters the greedy `[^)]*` tries the rightmost `VERSION ...` occurrence
first. -/
def matchProjectAt (l : List Char) : Option (List Char) := do
  let r1 ← stripLitCi ['P', 'R', 'O', 'J', 'E', 'C', 'T'] l
  let r3 ← expectChar '(' (dropWs r1)
  let sp := r3.takeWhile (fun ch => ¬ ch = ')')
  match r3.dropWhile (fun ch => ¬ ch = ')') with
  | [] => none
  | _ :: _ => tryDescend matchVersionFrom sp.length r3

/-- Unanchored `re.search`: try every start position left to right. -/
def searchFirst (f : List Char → Option α) : List Char → Option α
  | [] => f []
  | l@(_ :: rest) =>
    match f l with
    | some v => some v
    | none => searchFirst f rest

/-- The `PROJECT VERSION` extraction shared by all three scripts: first
match of the pattern over the whole configuration text, returning the
captured `MAJOR.MINOR.PATCH` text. -/
def projectVersionSearch (content : List Char) : Option (List Char) :=
  searchFirst matchProjectAt content

/-- The suffix after the first newline, `none` when there is none. -/
def dropToAfterNewline : List Char → Option (List Char)
  | [] => none
  | c :: rest => if c = '\n' then some rest else dropToAfterNewline rest

/-- Backtracking match of `[^#]*TAIL` at one start position: the greedy
`[^#]*` consumes at most the maximal run of non-`#` characters and yields
the rightmost success of `f`. -/
def tryGreedyML (f : List Char → Option α) (l : List Char) : Option α :=
  tryDescend f (l.takeWhile (fun ch => ¬ ch = '#')).length l

/-- Fuel-indexed scan over the line starts of the input (structural recursion
so that the kernel can evaluate it; the fuel is consumed one line at a time
and `searchML` supplies more fuel than there are characters). -/
def searchMLGo (f : List Char → Option α) : Nat → List Char → Option α
  | 0, _ => none
  | n + 1, l =>
    match tryGreedyML f l with
    | some v => some v
    | none =>
      match dropToAfterNewline l with
      | none => none
      | some rest => searchMLGo f n rest

/-- `re.search(r'^[^#]*TAIL', content, re.MULTILINE)`: `^` matches at offset
0 and after each newline; positions are tried left to right, and at each
position the greedy `[^#]*` backtracks from its maximal extent. -/
def searchML (f : List Char → Option α) (l : List Char) : Option α :=
  searchMLGo f (l.length + 1) l

/-- `SET\s*\(KEY\s*"(\d+)"\s*\)` at the head of the input, returning the
captured digit text. -/
def matchKeyQuoted (keyLit : List Char) (l : List Char) : Option (List Char) := do
  let r1 ← stripLit ['S', 'E', 'T'] l
  let r2 ← expectChar '(' (dropWs r1)
  let r3 ← stripLit keyLit r2
  let r4 ← expectChar '"' (dropWs r3)
  let (ds, r5) ← takeDigits r4
  let r6 ← expectChar '"' r5
  let _ ← expectChar ')' (dropWs r6)
  pure ds

/-- Tail matcher of the rc pattern of prepare_documentation.py (line 32) and
patch_doxyfile.py (line 27): `SET\s*\(RC_VERSION\s*"(\d+)"\s*\)`. -/
def matchRcTailPrep (l : List Char) : Option (List Char) :=
  matchKeyQuoted ['R', 'C', '_', 'V', 'E', 'R', 'S', 'I', 'O', 'N'] l

/-- Tail matcher of the rc pattern of check_version.py (line 40):
`SET\s*\((?:RC_VERSION|CMAKE_PROJECT_VERSION_RC)\s*"(\d+)"\s*\)` (the two
alternatives start with different characters, so alternation order is
immaterial). -/
def matchRcTailCheck (l : List Char) : Option (List Char) :=
  match matchRcTailPrep l with
  | some ds => some ds
  | none =>
    matchKeyQuoted
      ['C', 'M', 'A', 'K', 'E', '_', 'P', 'R', 'O', 'J', 'E', 'C', 'T',
       '_', 'V', 'E', 'R', 'S', 'I', 'O', 'N', '_', 'R', 'C'] l

/-- The characters of `"CMAKE_PROJECT_VERSION_MAJOR"`. -/
def KMAJ : List Char :=
  ['C', 'M', 'A', 'K', 'E', '_', 'P', 'R', 'O', 'J', 'E', 'C', 'T', '_',
   'V', 'E', 'R', 'S', 'I', 'O', 'N', '_', 'M', 'A', 'J', 'O', 'R']

/-- The characters of `"CMAKE_PROJECT_VERSION_MINOR"`. -/
def KMIN : List Char :=
  ['C', 'M', 'A', 'K', 'E', '_', 'P', 'R', 'O', 'J', 'E', 'C', 'T', '_',
   'V', 'E', 'R', 'S', 'I', 'O', 'N', '_', 'M', 'I', 'N', 'O', 'R']

/-- The characters of `"CMAKE_PROJECT_VERSION_PATCH"`. -/
def KPAT : List Char :=
  ['C', 'M', 'A', 'K', 'E', '_', 'P', 'R', 'O', 'J', 'E', 'C', 'T', '_',
   'V', 'E', 'R', 'S', 'I', 'O', 'N', '_', 'P', 'A', 'T', 'C', 'H']

/-- Tail matcher of the legacy field pattern of check_version.py (line 26):
`SET\(KEY[\s]*"([^"]*)"\)` (no whitespace allowed between `SET` and `(` or
around the closing quote); the capture may be empty. -/
def matchLegacyTail (keyLit : List Char) (l : List Char) : Option (List Char) := do
  let r1 ← stripLit ['S', 'E', 'T'] l
  let r2 ← expectChar '(' r1
  let r3 ← stripLit keyLit r2
  let r4 ← expectChar '"' (dropWs r3)
  let cap := r4.takeWhile (fun ch => ¬ ch = '"')
  let r5 := r4.dropWhile (fun ch => ¬ ch = '"')
  let r6 ← expectChar '"' r5
  let _ ← expectChar ')' r6
  pure cap

/-- `SET\s*\(PACKAGE_VERSION\s*"\$\{PROJECT_VERSION\}"\s*\)` at the head of
the input (patch_doxyfile.py line 35). -/
def matchPackageAt (l : List Char) : Option Unit := do
  let r1 ← stripLit ['S', 'E', 'T'] l
  let r2 ← expectChar '(' (dropWs r1)
  let r3 ← stripLit
      ['P', 'A', 'C', 'K', 'A', 'G', 'E', '_', 'V', 'E', 'R', 'S', 'I', 'O', 'N'] r2
  let r4 ← stripLit
      ['"', '$', '\x7b', 'P', 'R', 'O', 'J', 'E', 'C', 'T', '_', 'V', 'E',
       'R', 'S', 'I', 'O', 'N', '\x7d', '"'] (dropWs r3)
  let _ ← expectChar ')' (dropWs r4)
  pure ()

/-- The released-marker search of patch_doxyfile.py (line 36): unanchored
search for the `PACKAGE_VERSION` assignment. -/
def packageSearch (content : List Char) : Bool :=
  (searchFirst matchPackageAt content).isSome

/-- `DoxyfileUpdater._parse_cmake_version` (patch_doxyfile.py lines 8-42):
base from `PROJECT VERSION` (`none` models the `ValueError`), then `-rcN`
when an uncommented `RC_VERSION` is found — without consulting the released
marker — otherwise `-SNAPSHOT` unless the `PACKAGE_VERSION` released marker
is present.  The captured rc digits are spliced in as text, exactly as the
f-string does. -/
def doxParseCmakeVersion (content : List Char) : Option (List Char) :=
  match projectVersionSearch content with
  | none => none
  | some v =>
    match searchML matchRcTailPrep content with
    | some ds => some (v ++ '-' :: 'r' :: 'c' :: ds)
    | none =>
      if packageSearch content then some v
      else some (v ++ SNAPTAIL)

/-- `DocumentationManager._parse_cmake_version` (prepare_documentation.py
lines 17-41): base from `PROJECT VERSION`, then `-rcN-SNAPSHOT` when an
uncommented `RC_VERSION` is found, else `-SNAPSHOT`. -/
def prepParseCmakeVersion (content : List Char) : Option (List Char) :=
  match projectVersionSearch content with
  | none => none
  | some v =>
    match searchML matchRcTailPrep content with
    | some ds => some (v ++ '-' :: 'r' :: 'c' :: ds ++ SNAPTAIL)
    | none => some (v ++ SNAPTAIL)

/-- One legacy field of check_version.py (lines 25-28):
`extract_value(key)` via the multiline `^[^#]*SET\(KEY[\s]*"([^"]*)"\)`
search. -/
def extractVal (keyLit : List Char) (content : List Char) : Option (List Char) :=
  searchML (matchLegacyTail keyLit) content

/-- The base-version lookup of `VersionChecker._parse_cmake_version`
(check_version.py lines 17-37): modern `PROJECT VERSION` pattern first; on
failure the three legacy fields, all of which must be present and nonempty
(Python truthiness in `all([major, minor, patch])`). -/
def checkBase (content : List Char) : Option (List Char) :=
  match projectVersionSearch content with
  | some v => some v
  | none =>
    match extractVal KMAJ content, extractVal KMIN content,
        extractVal KPAT content with
    | some ma, some mi, some pa =>
      if ma = [] ∨ mi = [] ∨ pa = [] then none
      else some (ma ++ '.' :: mi ++ '.' :: pa)
    | _, _, _ => none

/-- `VersionChecker._parse_cmake_version` (check_version.py lines 13-46):
the base from `checkBase`, then `-rcN` appended when an uncommented rc
marker is found. -/
def checkParseCmakeVersion (content : List Char) : Option (List Char) :=
  match checkBase content with
  | none => none
  | some base =>
    match searchML matchRcTailCheck content with
    | some ds => some (base ++ '-' :: 'r' :: 'c' :: ds)
    | none => some base

/-- Whether the legacy three-field fallback of check_version.py yields a
full triple: all three fields found and nonempty. -/
def legacyTripleOk (content : List Char) : Bool :=
  match extractVal KMAJ content, extractVal KMIN content,
      extractVal KPAT content with
  | some ma, some mi, some pa => ¬ (ma = [] ∨ mi = [] ∨ pa = [])
  | _, _, _ => false

/-- The rc suffix that check_version.py appends after locating the base. -/
def checkRcSuffixed (content : List Char) (base : List Char) : List Char :=
  match searchML matchRcTailCheck content with
  | some ds => base ++ '-' :: 'r' :: 'c' :: ds
  | none => base

/-- The category weight `_get_version_key` assigns (ascending sort order:
snapshot candidate 0, released candidate 1, plain snapshot 2, stable 3). -/
def rankW : Option Nat → Bool → Nat
  | some _, true => 0
  | some _, false => 1
  | none, true => 2
  | none, false => 3

/-- The rc tie-break component of the key (0 when no rc). -/
def rcVal : Option Nat → Nat
  | some n => n
  | none => 0

/-- One row of the versions table (prepare_documentation.py line 162). -/
def renderRow (v : List Char) : List Char :=
  "| ".data ++ v ++ " | [API documentation](".data ++ v ++ ") |\n".data

/-- The text of `list_versions.md` as a function of the most-recent-first
version sequence and the `latest`-row flag (prepare_documentation.py lines
154-162): header, optional `latest` row, one row per version. -/
def renderIndex (sortedDesc : List (List Char)) (hasLatest : Bool) : List Char :=
  "| Version | Documents |\n".data ++ "|:---:|---|\n".data ++
    (if hasLatest then "| latest | [API documentation](latest) |\n".data else []) ++
    (sortedDesc.map renderRow).flatten

/-- The index text produced by `_generate_versions_list` from the directory
scan: keep the names matched by the version pattern (in scan order), sort
most-recent-first, render; `none` when a key computation raises. -/
def generateVersionsList (dirNames : List (List Char)) (hasLatest : Bool) :
    Option (List Char) :=
  (mostRecentFirst (dirNames.filter versionPattern)).map
    (fun rs => renderIndex rs hasLatest)

/-- The name `list_versions.md`. -/
def LISTMD : List Char := "list_versions.md".data

/-- The state `_generate_versions_list` works on: the version directories of
the working directory (scan order), whether `latest` exists, and the plain
files (name, content). -/
structure DocsFS where
  dirs : List (List Char)
  hasLatest : Bool
  files : List (List Char × List Char)

/-- File lookup; the most recently written entry wins. -/
def getFile : List (List Char × List Char) → List Char → Option (List Char)
  | [], _ => none
  | p :: rest, n => if p.1 = n then some p.2 else getFile rest n

/-- `_generate_versions_list` (lines 137-165) as a state transformer: writes
the rendered index to `list_versions.md` and changes nothing else; `none`
models an uncaught exception during sorting. -/
def generateVersionsListFS (fs : DocsFS) : Option DocsFS :=
  (generateVersionsList fs.dirs fs.hasLatest).map
    (fun txt => ⟨fs.dirs, fs.hasLatest, (LISTMD, txt) :: fs.files⟩)

/-- Scan every offset of the text, tracking whether the current line has no
`'#'` before the current offset (`ok`, reset to `true` after each newline):
true when some offset whose line prefix is `'#'`-free starts a match of
`f`.  This is the claim's line-based reading of the `^[^#]*...` search: a
marker counts exactly when it stands on a line not prefixed by the comment
character. -/
def hasUncommentedGo (f : List Char → Option (List Char)) :
    Bool → List Char → Bool
  | ok, [] => ok && (f []).isSome
  | ok, c :: rest =>
    (ok && (f (c :: rest)).isSome) ||
      hasUncommentedGo f (if c = '\n' then true else ok && !(c = '#')) rest

/-- Some offset with a `'#'`-free line prefix starts a match of `f`. -/
def hasUncommented (f : List Char → Option (List Char)) (l : List Char) : Bool :=
  hasUncommentedGo f true l

/-- Like `hasUncommentedGo`, but asking for a match capturing exactly `ds`. -/
def capturedUncommentedGo (f : List Char → Option (List Char)) (ds : List Char) :
    Bool → List Char → Bool
  | ok, [] => ok && decide (f [] = some ds)
  | ok, c :: rest =>
    (ok && decide (f (c :: rest) = some ds)) ||
      capturedUncommentedGo f ds (if c = '\n' then true else ok && !(c = '#')) rest

/-- Some offset with a `'#'`-free line prefix starts a match of `f` whose
capture is `ds`. -/
def capturedUncommented (f : List Char → Option (List Char)) (ds l : List Char) :
    Bool :=
  capturedUncommentedGo f ds true l

/-- The listing position a (rc marker, snapshot flag) pair receives in the
amended per-base most-recent-first order: stable first, then the plain
snapshot, then released candidates, then snapshot candidates.  Spec-side
definition, written from the amended claim C1, to be compared against the
code's key. -/
def amendedPos : Option Nat × Bool → Nat
  | (none, false) => 0
  | (none, true) => 1
  | (some _, false) => 2
  | (some _, true) => 3

/-- `p` is listed before `q` in the amended per-base most-recent-first order:
an earlier category, or the same candidate category with a higher rc number.
Spec-side definition written from the amended claim C1. -/
def amendedBefore (p q : Option Nat × Bool) : Prop :=
  amendedPos p < amendedPos q ∨
    (amendedPos p = amendedPos q ∧ rcVal q.1 < rcVal p.1)

/-! ### Basic lemmas about the string primitives -/

theorem dropToAfterNewline_length :
    ∀ {l rest : List Char}, dropToAfterNewline l = some rest →
      rest.length < l.length := by
  intro l
  induction l with
  | nil => intro rest h; simp [dropToAfterNewline] at h
  | cons c cs ih =>
    intro rest h
    by_cases hc : c = '\n'
    · simp [dropToAfterNewline, hc] at h
      simp [← h, List.length_cons, Nat.lt_succ_self]
    · simp [dropToAfterNewline, hc] at h
      exact Nat.lt_trans (ih h) (Nat.lt_succ_self _)

theorem searchMLGo_fuel {α : Type} (f : List Char → Option α) :
    ∀ {n m : Nat} {l : List Char}, l.length < n → l.length < m →
      searchMLGo f n l = searchMLGo f m l := by
  intro n
  induction n with
  | zero => intro m l h; omega
  | succ k ih =>
    intro m l h1 h2
    cases m with
    | zero => omega
    | succ j =>
      simp only [searchMLGo]
      rcases tryGreedyML f l with _ | v
      · simp only []
        rcases hd : dropToAfterNewline l with _ | rest
        · rfl
        · have hlen := dropToAfterNewline_length hd
          exact ih (by omega) (by omega)
      · rfl

/-- The one-step unfolding of `searchML`: try the current line start, then
continue after the next newline. -/
theorem searchML_eq {α : Type} (f : List Char → Option α) (l : List Char) :
    searchML f l =
      match tryGreedyML f l with
      | some v => some v
      | none =>
        match dropToAfterNewline l with
        | none => none
        | some rest => searchML f rest := by
  show searchMLGo f (l.length + 1) l = _
  simp only [searchMLGo]
  rcases tryGreedyML f l with _ | v
  · simp only []
    rcases hd : dropToAfterNewline l with _ | rest
    · rfl
    · have hlen := dropToAfterNewline_length hd
      exact searchMLGo_fuel f (by omega) (by omega)
  · rfl


theorem startsWithL_append (p x : List Char) : startsWithL p (p ++ x) = true := by
  induction p with
  | nil => rfl
  | cons c cs ih => simp [startsWithL, ih]

theorem startsWithL_exists {p l : List Char} (h : startsWithL p l = true) :
    ∃ x, l = p ++ x := by
  induction p generalizing l with
  | nil => exact ⟨l, rfl⟩
  | cons c cs ih =>
    cases l with
    | nil => simp [startsWithL] at h
    | cons d ds =>
      simp only [startsWithL, Bool.and_eq_true, decide_eq_true_eq] at h
      obtain ⟨x, hx⟩ := ih h.2
      exact ⟨x, by simp [← h.1, hx]⟩

theorem containsSub_of_append (a p b : List Char) :
    containsSub (a ++ p ++ b) p = true := by
  induction a with
  | nil =>
    have h1 : startsWithL p (p ++ b) = true := startsWithL_append p b
    simp only [List.nil_append]
    rcases hpb : p ++ b with _ | ⟨y, ys⟩
    · rw [hpb] at h1
      simp [containsSub, h1]
    · rw [hpb] at h1
      simp [containsSub, h1]
  | cons c cs ih =>
    simp only [List.cons_append, containsSub, Bool.or_eq_true, List.append_eq]
    exact Or.inr ih

theorem containsSub_eq_false {l : List Char} (c : Char) (p : List Char)
    (h : l.all (fun x => ¬ x = c) = true) : containsSub l (c :: p) = false := by
  induction l with
  | nil => simp [containsSub, startsWithL]
  | cons d ds ih =>
    simp only [List.all_cons, Bool.and_eq_true, decide_eq_true_eq] at h
    simp only [containsSub, startsWithL, Bool.or_eq_false_iff, Bool.and_eq_false_iff]
    refine ⟨Or.inl ?_, ih h.2⟩
    simp
    exact fun he => h.1 he.symm

theorem containsSub_mono {l : List Char} (c : Char) (p x : List Char)
    (h : containsSub x (c :: p) = true) : containsSub (l ++ x) (c :: p) = true := by
  induction l with
  | nil => simpa using h
  | cons d ds ih =>
    simp only [List.cons_append, containsSub, List.append_eq]
    simp [ih]

theorem endsWithL_append (x pat : List Char) : endsWithL (x ++ pat) pat = true := by
  simp only [endsWithL, List.reverse_append]
  exact startsWithL_append _ _

theorem endsWithL_exists {l pat : List Char} (h : endsWithL l pat = true) :
    ∃ x, l = x ++ pat := by
  obtain ⟨y, hy⟩ := startsWithL_exists h
  refine ⟨y.reverse, ?_⟩
  have := congrArg List.reverse hy
  simpa using this

theorem splitDash_ne_nil (l : List Char) : splitDash l ≠ [] := by
  cases l with
  | nil => simp [splitDash]
  | cons c cs =>
    simp only [splitDash]
    split
    · simp
    · split <;> simp

theorem splitDash_cons_dash (l : List Char) :
    splitDash ('-' :: l) = [] :: splitDash l := by
  simp [splitDash]

theorem splitDash_append {a : List Char} (l : List Char)
    (h : a.all (fun x => ¬ x = '-') = true) :
    splitDash (a ++ l) = (a ++ (splitDash l).headD []) :: (splitDash l).tail := by
  induction a with
  | nil =>
    rcases hs : splitDash l with _ | ⟨p, ps⟩
    · exact absurd hs (splitDash_ne_nil l)
    · simp [hs]
  | cons c cs ih =>
    simp only [List.all_cons, Bool.and_eq_true, decide_eq_true_eq] at h
    simp only [List.cons_append, splitDash, if_neg h.1, List.append_eq]
    rw [ih h.2]

theorem splitRc_ne_nil (l : List Char) : splitRc l ≠ [] := by
  match l with
  | [] => simp [splitRc]
  | [c] => simp [splitRc]
  | c₁ :: c₂ :: rest =>
    simp only [splitRc]
    split
    · simp
    · split <;> simp

theorem splitRc_rc (l : List Char) : splitRc ('r' :: 'c' :: l) = [] :: splitRc l := by
  simp [splitRc]

theorem splitRc_append {a : List Char} (l : List Char)
    (h : a.all (fun x => ¬ x = 'r') = true) :
    splitRc (a ++ l) = (a ++ (splitRc l).headD []) :: (splitRc l).tail := by
  induction a with
  | nil =>
    rcases hs : splitRc l with _ | ⟨p, ps⟩
    · exact absurd hs (splitRc_ne_nil l)
    · simp [hs]
  | cons c cs ih =>
    simp only [List.all_cons, Bool.and_eq_true, decide_eq_true_eq] at h
    rcases hma : cs ++ l with _ | ⟨y, ys⟩
    · rcases List.append_eq_nil.mp hma with ⟨h1, h2⟩
      subst h1 h2
      simp [splitRc]
    · simp only [List.cons_append, hma, splitRc, h.1, false_and, if_false]
      rw [← hma, ih h.2]

theorem toLower_of_le57 {c : Char} (h : c.toNat ≤ 57) : c.toLower = c := by
  simp only [Char.toLower]
  split
  · omega
  · rfl

theorem toLower_digit {c : Char} (h : isDigitChar c = true) : c.toLower = c := by
  simp only [isDigitChar, Bool.and_eq_true, decide_eq_true_eq] at h
  exact toLower_of_le57 h.2

theorem digit_ne {c k : Char} (h : isDigitChar c = true)
    (hk : isDigitChar k = false) : ¬ c = k := by
  intro he
  rw [he, hk] at h
  exact Bool.false_ne_true h

theorem endsWithSnap_append (x : List Char) : endsWithSnap (x ++ SNAPTAIL) = true :=
  endsWithL_append x SNAPTAIL

theorem containsSub_snaptail (x : List Char) :
    containsSub (x ++ SNAPTAIL) SNAPTAIL = true := by
  have h := containsSub_of_append x SNAPTAIL []
  simpa using h

theorem updatesLatest_append_snap (x : List Char) :
    updatesLatest (x ++ SNAPTAIL) = false := by
  simp [updatesLatest, containsSub_snaptail]

/-! ### C2: the deletion performed by `prepare_documentation` -/

/-- C2: for every existing directory set and incoming version, a snapshot
incoming version deletes nothing, and a non-snapshot incoming version deletes
exactly the directory named `<incoming>-SNAPSHOT` when present and touches no
other directory. -/
theorem c2_delete_exact (existing : List (List Char)) (version : List Char) :
    (endsWithSnap version = true → toDelete existing version = []) ∧
    (endsWithSnap version = false →
      ∀ d, d ∈ toDelete existing version ↔ d ∈ existing ∧ d = version ++ SNAPTAIL) := by
  constructor
  · intro h
    simp [toDelete, h]
  · intro h d
    by_cases hrc : containsSub version ['-', 'r', 'c'] = true
    · simp [toDelete, h, hrc, List.mem_filter]
    · simp [toDelete, h, hrc, List.mem_filter]

/-- Witness for C2: publishing `2.1.0-rc1-SNAPSHOT` deletes nothing; publishing
`2.1.0-rc1` deletes `2.1.0-rc1-SNAPSHOT` but not `2.1.0-rc2-SNAPSHOT`. -/
theorem c2_delete_exact_witness :
    toDelete
      ["2.1.0-rc1-SNAPSHOT".data, "2.1.0-rc2-SNAPSHOT".data, "2.0.0".data]
      "2.1.0-rc1-SNAPSHOT".data = [] ∧
    "2.1.0-rc1-SNAPSHOT".data ∈ toDelete
      ["2.1.0-rc1-SNAPSHOT".data, "2.1.0-rc2-SNAPSHOT".data, "2.0.0".data]
      "2.1.0-rc1".data ∧
    ¬ "2.1.0-rc2-SNAPSHOT".data ∈ toDelete
      ["2.1.0-rc1-SNAPSHOT".data, "2.1.0-rc2-SNAPSHOT".data, "2.0.0".data]
      "2.1.0-rc1".data := by
  refine ⟨(c2_delete_exact _ _).1 (by decide), ?_, ?_⟩
  · exact ((c2_delete_exact _ "2.1.0-rc1".data).2 (by decide) _).mpr
      ⟨by decide, by decide⟩
  · intro hmem
    have h := ((c2_delete_exact _ "2.1.0-rc1".data).2 (by decide) _).mp hmem
    exact absurd h.2 (by decide)

/-! ### C9: `_parse_cmake_version` of `prepare_documentation` only yields
snapshots -/

/-- C9: every version string returned by
`DocumentationManager._parse_cmake_version` ends in `-SNAPSHOT`, so a
`prepare_documentation` run without an explicit version argument never enters
the snapshot-deletion branch and never enters the `latest`-symlink branch. -/
theorem c9_parse_snapshot (content v : List Char) (existing : List (List Char))
    (h : prepParseCmakeVersion content = some v) :
    endsWithSnap v = true ∧ toDelete existing v = [] ∧ updatesLatest v = false := by
  have hv : ∃ x, v = x ++ SNAPTAIL := by
    unfold prepParseCmakeVersion at h
    rcases hp : projectVersionSearch content with _ | base
    · rw [hp] at h; exact absurd h (by simp)
    · rw [hp] at h
      rcases hrc : searchML matchRcTailPrep content with _ | ds
      · rw [hrc] at h
        simp only [Option.some.injEq] at h
        exact ⟨base, h.symm⟩
      · rw [hrc] at h
        simp only [Option.some.injEq] at h
        exact ⟨base ++ '-' :: 'r' :: 'c' :: ds, h.symm⟩
  obtain ⟨x, hx⟩ := hv
  subst hx
  refine ⟨endsWithSnap_append x, ?_, updatesLatest_append_snap x⟩
  simp [toDelete, endsWithSnap_append x]

/-- Witness for C9 at a concrete configuration text. -/
theorem c9_parse_snapshot_witness :
    prepParseCmakeVersion "PROJECT(K VERSION 1.2.3)".data
        = some "1.2.3-SNAPSHOT".data ∧
    (endsWithSnap "1.2.3-SNAPSHOT".data = true ∧
      toDelete ["1.2.3-SNAPSHOT".data] "1.2.3-SNAPSHOT".data = [] ∧
      updatesLatest "1.2.3-SNAPSHOT".data = false) :=
  ⟨by decide,
    c9_parse_snapshot "PROJECT(K VERSION 1.2.3)".data "1.2.3-SNAPSHOT".data
      ["1.2.3-SNAPSHOT".data] (by decide)⟩

/-! ### C5: pattern priority and failure condition of
`VersionChecker._parse_cmake_version` -/

/-- C5: `VersionChecker._parse_cmake_version` succeeds exactly when the modern
`PROJECT VERSION` pattern matches or the legacy three-field fallback yields a
full nonempty triple, and when the modern pattern matches its capture is the
base that is used (the legacy fields are ignored). -/
theorem c5_pattern_priority (content : List Char) :
    ((checkParseCmakeVersion content).isSome
        = ((projectVersionSearch content).isSome || legacyTripleOk content)) ∧
    (∀ t, projectVersionSearch content = some t →
      checkParseCmakeVersion content = some (checkRcSuffixed content t)) := by
  have hstep : (checkParseCmakeVersion content).isSome = (checkBase content).isSome := by
    unfold checkParseCmakeVersion
    rcases hb : checkBase content with _ | base
    · simp
    · rcases hrc : searchML matchRcTailCheck content with _ | ds <;> simp
  constructor
  · rw [hstep]
    rcases hp : projectVersionSearch content with _ | base
    · simp only [checkBase, legacyTripleOk, hp, Option.isSome_none, Bool.false_or]
      rcases h1 : extractVal KMAJ content with _ | ma <;>
        rcases h2 : extractVal KMIN content with _ | mi <;>
        rcases h3 : extractVal KPAT content with _ | pa <;>
        simp only [Option.isSome_none, Option.isSome_some]
      by_cases he : ma = [] ∨ mi = [] ∨ pa = [] <;> simp [he]
    · simp [checkBase, hp]
  · intro t ht
    have hb : checkBase content = some t := by
      unfold checkBase
      rw [ht]
    unfold checkParseCmakeVersion checkRcSuffixed
    rw [hb]
    rcases hrc : searchML matchRcTailCheck content with _ | ds <;> rfl

/-- Witness for C5 at a concrete configuration text whose modern pattern
matches. -/
theorem c5_pattern_priority_witness :
    ((checkParseCmakeVersion "PROJECT(K VERSION 2.1.0)".data).isSome
        = ((projectVersionSearch "PROJECT(K VERSION 2.1.0)".data).isSome
            || legacyTripleOk "PROJECT(K VERSION 2.1.0)".data)) ∧
    checkParseCmakeVersion "PROJECT(K VERSION 2.1.0)".data
        = some (checkRcSuffixed "PROJECT(K VERSION 2.1.0)".data "2.1.0".data) :=
  ⟨(c5_pattern_priority _).1,
    (c5_pattern_priority "PROJECT(K VERSION 2.1.0)".data).2 "2.1.0".data
      (by decide)⟩

/-! ### C7: the index renderer is a function of the ordered versions and the
`latest` flag, and writing the index is its only effect -/

/-- C7: `_generate_versions_list` changes nothing in the state except the
content of `list_versions.md`, and the text it writes is `renderIndex`
applied to exactly the most-recent-first version sequence and the
`latest`-exists flag — a pure function of those two inputs. -/
theorem c7_render_pure (fs fs' : DocsFS)
    (h : generateVersionsListFS fs = some fs') :
    fs'.dirs = fs.dirs ∧ fs'.hasLatest = fs.hasLatest ∧
    (∀ n, ¬ n = LISTMD → getFile fs'.files n = getFile fs.files n) ∧
    getFile fs'.files LISTMD = generateVersionsList fs.dirs fs.hasLatest ∧
    (∀ rs, mostRecentFirst (fs.dirs.filter versionPattern) = some rs →
      getFile fs'.files LISTMD = some (renderIndex rs fs.hasLatest)) := by
  unfold generateVersionsListFS at h
  rcases hg : generateVersionsList fs.dirs fs.hasLatest with _ | txt
  · rw [hg] at h
    exact absurd h (by simp)
  · rw [hg] at h
    simp only [Option.map_some', Option.some.injEq] at h
    subst h
    refine ⟨rfl, rfl, ?_, ?_, ?_⟩
    · intro n hn
      simp only [getFile]
      rw [if_neg (fun he => hn he.symm)]
    · simp [getFile, hg]
    · intro rs hrs
      unfold generateVersionsList at hg
      rw [hrs] at hg
      simp only [Option.map_some', Option.some.injEq] at hg
      simp [getFile, hg]

/-- Witness for C7 on a concrete state with two version directories, one
non-version directory and an existing `latest`. -/
theorem c7_render_pure_witness :
    generateVersionsListFS ⟨["2.0.0".data, "2.1.0".data, "api".data], true,
        [("robots.txt".data, "x".data)]⟩
      = some ⟨["2.0.0".data, "2.1.0".data, "api".data], true,
        [(LISTMD, renderIndex ["2.1.0".data, "2.0.0".data] true),
         ("robots.txt".data, "x".data)]⟩ ∧
    getFile [(LISTMD, renderIndex ["2.1.0".data, "2.0.0".data] true),
        ("robots.txt".data, "x".data)] "robots.txt".data
      = getFile [("robots.txt".data, "x".data)] "robots.txt".data ∧
    getFile [(LISTMD, renderIndex ["2.1.0".data, "2.0.0".data] true),
        ("robots.txt".data, "x".data)] LISTMD
      = some (renderIndex ["2.1.0".data, "2.0.0".data] true) := by
  have h : generateVersionsListFS ⟨["2.0.0".data, "2.1.0".data, "api".data], true,
      [("robots.txt".data, "x".data)]⟩
      = some ⟨["2.0.0".data, "2.1.0".data, "api".data], true,
        [(LISTMD, renderIndex ["2.1.0".data, "2.0.0".data] true),
         ("robots.txt".data, "x".data)]⟩ := by
    unfold generateVersionsListFS generateVersionsList
    have hm : mostRecentFirst ((["2.0.0".data, "2.1.0".data,
        "api".data]).filter versionPattern)
        = some ["2.1.0".data, "2.0.0".data] := by decide
    rw [hm]
    rfl
  have hc := c7_render_pure _ _ h
  exact ⟨h, hc.2.2.1 "robots.txt".data (by decide),
    hc.2.2.2.2 ["2.1.0".data, "2.0.0".data] (by decide)⟩

/-! ### C3: snapshot marking in `DoxyfileUpdater._parse_cmake_version` -/

theorem all_takeWhile (p : Char → Bool) (l : List Char) :
    (l.takeWhile p).all p = true := by
  induction l with
  | nil => rfl
  | cons c cs ih =>
    by_cases hc : p c
    · simp [List.takeWhile_cons, hc, ih]
    · simp [List.takeWhile_cons, hc]

theorem takeDigits_digits {l ds rest : List Char}
    (h : takeDigits l = some (ds, rest)) :
    ¬ ds = [] ∧ ds.all isDigitChar = true := by
  unfold takeDigits at h
  by_cases he : l.takeWhile isDigitChar = []
  · rw [if_pos he] at h
    exact absurd h (by simp)
  · rw [if_neg he] at h
    simp only [Option.some.injEq, Prod.mk.injEq] at h
    exact ⟨h.1 ▸ he, h.1 ▸ all_takeWhile isDigitChar l⟩

theorem matchKeyQuoted_digits {key l ds : List Char}
    (h : matchKeyQuoted key l = some ds) :
    ¬ ds = [] ∧ ds.all isDigitChar = true := by
  unfold matchKeyQuoted at h
  simp only [Option.bind_eq_bind, Option.bind_eq_some] at h
  obtain ⟨r1, _, h1⟩ := h
  obtain ⟨r2, _, h2⟩ := h1
  obtain ⟨r3, _, h3⟩ := h2
  obtain ⟨r4, _, h4⟩ := h3
  obtain ⟨⟨ds', r5⟩, hds, h5⟩ := h4
  obtain ⟨r6, _, h6⟩ := h5
  obtain ⟨r7, _, h7⟩ := h6
  simp only [Option.pure_def, Option.some.injEq] at h7
  subst h7
  exact takeDigits_digits hds

theorem tryDescend_some {α : Type} {f : List Char → Option α} :
    ∀ {n : Nat} {l : List Char} {v : α}, tryDescend f n l = some v →
      ∃ k, k ≤ n ∧ f (l.drop k) = some v := by
  intro n
  induction n with
  | zero =>
    intro l v h
    exact ⟨0, Nat.le_refl 0, h⟩
  | succ m ih =>
    intro l v h
    unfold tryDescend at h
    rcases hf : f (l.drop (m + 1)) with _ | w
    · rw [hf] at h
      obtain ⟨k, hk, hfk⟩ := ih h
      exact ⟨k, Nat.le_succ_of_le hk, hfk⟩
    · rw [hf] at h
      simp only [Option.some.injEq] at h
      exact ⟨m + 1, Nat.le_refl _, h ▸ hf⟩

theorem searchMLGo_some {α : Type} {f : List Char → Option α} :
    ∀ {fuel : Nat} {l : List Char} {v : α}, searchMLGo f fuel l = some v →
      ∃ l', f l' = some v := by
  intro fuel
  induction fuel with
  | zero => intro l v h; exact absurd h (by simp [searchMLGo])
  | succ m ih =>
    intro l v h
    unfold searchMLGo at h
    rcases hg : tryGreedyML f l with _ | w
    · rw [hg] at h
      rcases hd : dropToAfterNewline l with _ | rest
      · rw [hd] at h
        exact absurd h (by simp)
      · rw [hd] at h
        exact ih h
    · rw [hg] at h
      simp only [Option.some.injEq] at h
      subst h
      obtain ⟨k, _, hk⟩ := tryDescend_some hg
      exact ⟨l.drop k, hk⟩

theorem searchML_some {α : Type} {f : List Char → Option α} {l : List Char}
    {v : α} (h : searchML f l = some v) : ∃ l', f l' = some v :=
  searchMLGo_some h

theorem endsWithSnap_rc (v ds : List Char) (hne : ¬ ds = [])
    (hall : ds.all isDigitChar = true) :
    endsWithSnap (v ++ '-' :: 'r' :: 'c' :: ds) = false := by
  rcases List.eq_nil_or_concat ds with h | ⟨tl, ch, hch⟩
  · exact absurd h hne
  · subst hch
    have hd : isDigitChar ch = true :=
      List.all_eq_true.mp hall ch (by simp)
    have hne2 : ¬ 'T' = ch := fun he => digit_ne hd (by decide) he.symm
    unfold endsWithSnap endsWithL SNAPTAIL SNAPU
    simp [List.reverse_append, startsWithL, hne2]

/-- Counterexample to C3: a configuration with a locatable triple, an
uncommented rc marker and no released-marker parses to `2.1.0-rc1`, which is
not rendered with the `-SNAPSHOT` suffix — so snapshot marking is not
independent of the rc marker. -/
theorem c3_counterexample :
    doxParseCmakeVersion
        "PROJECT(K VERSION 2.1.0)\nSET(RC_VERSION \"1\")\n".data
      = some "2.1.0-rc1".data ∧
    packageSearch "PROJECT(K VERSION 2.1.0)\nSET(RC_VERSION \"1\")\n".data
      = false ∧
    endsWithSnap "2.1.0-rc1".data = false := by decide

/-- C3 (amended): `DoxyfileUpdater._parse_cmake_version` applies the
snapshot determination only when no uncommented rc marker is present: with
no rc marker the version gets the `-SNAPSHOT` suffix exactly when the
released-marker is absent, and with an rc marker the version is rendered
`-rcN` with no `-SNAPSHOT` suffix regardless of the released-marker. -/
theorem c3_rc_overrides_snapshot (content v : List Char)
    (h : projectVersionSearch content = some v) :
    (searchML matchRcTailPrep content = none →
      ((doxParseCmakeVersion content = some (v ++ SNAPTAIL))
          ↔ packageSearch content = false) ∧
      ((doxParseCmakeVersion content = some v)
          ↔ packageSearch content = true)) ∧
    (∀ ds, searchML matchRcTailPrep content = some ds →
      doxParseCmakeVersion content = some (v ++ '-' :: 'r' :: 'c' :: ds) ∧
      endsWithSnap (v ++ '-' :: 'r' :: 'c' :: ds) = false) := by
  constructor
  · intro hrc
    unfold doxParseCmakeVersion
    rw [h, hrc]
    by_cases hpkg : packageSearch content = true
    · simp [hpkg, SNAPTAIL, SNAPU]
    · have hpkg2 : packageSearch content = false := by simpa using hpkg
      simp [hpkg2, SNAPTAIL, SNAPU]
  · intro ds hds
    have hdig : ¬ ds = [] ∧ ds.all isDigitChar = true := by
      obtain ⟨l', hl'⟩ := searchML_some hds
      exact matchKeyQuoted_digits hl'
    refine ⟨?_, endsWithSnap_rc v ds hdig.1 hdig.2⟩
    unfold doxParseCmakeVersion
    rw [h, hds]

/-! ### `_get_version_key` on each well-formed directory-name shape -/

theorem all_digit_ne {l : List Char} (k : Char) (hk : isDigitChar k = false)
    (h : l.all isDigitChar = true) : l.all (fun x => ¬ x = k) = true := by
  rw [List.all_eq_true] at h ⊢
  intro x hx
  simpa using digit_ne (h x hx) hk

theorem map_toLower_digits {l : List Char} (h : l.all isDigitChar = true) :
    l.map Char.toLower = l := by
  induction l with
  | nil => rfl
  | cons c cs ih =>
    simp only [List.all_cons, Bool.and_eq_true] at h
    simp [toLower_digit h.1, ih h.2]

theorem bs_all_ne {d1 d2 d3 : List Char} (k : Char) (hk : isDigitChar k = false)
    (hkd : ¬ '.' = k)
    (ha1 : d1.all isDigitChar = true) (ha2 : d2.all isDigitChar = true)
    (ha3 : d3.all isDigitChar = true) :
    (d1 ++ '.' :: (d2 ++ '.' :: d3)).all (fun x => ¬ x = k) = true := by
  have e1 := all_digit_ne k hk ha1
  have e2 := all_digit_ne k hk ha2
  have e3 := all_digit_ne k hk ha3
  rw [List.all_eq_true] at e1 e2 e3 ⊢
  intro x hx
  simp only [List.mem_append, List.mem_cons] at hx
  rcases hx with h | h | h | h | h
  · exact e1 x h
  · subst h
    simpa using hkd
  · exact e2 x h
  · subst h
    simpa using hkd
  · exact e3 x h

theorem splitDash_all_ne {a : List Char}
    (h : a.all (fun x => ¬ x = '-') = true) : splitDash a = [a] := by
  have h2 := splitDash_append (a := a) [] h
  rw [List.append_nil] at h2
  rw [h2]
  simp [splitDash]

theorem splitRc_all_ne {a : List Char}
    (h : a.all (fun x => ¬ x = 'r') = true) : splitRc a = [a] := by
  have h2 := splitRc_append (a := a) [] h
  rw [List.append_nil] at h2
  rw [h2]
  simp [splitRc]

theorem digit_not_ws {c : Char} (h : isDigitChar c = true) :
    isWsChar c = false := by
  rcases hw : isWsChar c with _ | _
  · rfl
  · exfalso
    simp only [isWsChar, Bool.or_eq_true, decide_eq_true_eq] at hw
    rcases hw with ((((rfl | rfl) | rfl) | rfl) | rfl) | rfl <;>
      exact absurd h (by decide)

theorem takeWhile_append_all {p : Char → Bool} {d rest : List Char}
    (h : ∀ a ∈ d, p a = true) :
    (d ++ rest).takeWhile p = d ++ rest.takeWhile p := by
  induction d with
  | nil => simp
  | cons c t ih =>
    simp only [List.cons_append]
    rw [List.takeWhile_cons_of_pos (h c (List.mem_cons_self c t)),
      ih (fun a ha => h a (List.mem_cons_of_mem c ha))]

theorem dropWhile_append_all {p : Char → Bool} {d rest : List Char}
    (h : ∀ a ∈ d, p a = true) :
    (d ++ rest).dropWhile p = rest.dropWhile p := by
  induction d with
  | nil => simp
  | cons c t ih =>
    simp only [List.cons_append]
    rw [List.dropWhile_cons_of_pos (h c (List.mem_cons_self c t))]
    exact ih (fun a ha => h a (List.mem_cons_of_mem c ha))

theorem dotRuns_nil (n : Nat) : dotRuns n [] = ([], []) := by
  cases n <;> rfl

theorem dotRuns_cons (n : Nat) (d Y : List Char)
    (hne : ¬ d = []) (hall : d.all isDigitChar = true)
    (hY : Y.takeWhile isDigitChar = []) :
    dotRuns (n + 1) ('.' :: (d ++ Y))
      = (d :: (dotRuns n Y).1, (dotRuns n Y).2) := by
  have hmem : ∀ a ∈ d, isDigitChar a = true := List.all_eq_true.mp hall
  have htw : (d ++ Y).takeWhile isDigitChar = d := by
    rw [takeWhile_append_all hmem, hY, List.append_nil]
  have hdw : (d ++ Y).dropWhile isDigitChar = Y := by
    rw [dropWhile_append_all hmem]
    conv_rhs => rw [← List.takeWhile_append_dropWhile (p := isDigitChar) (l := Y)]
    rw [hY, List.nil_append]
  simp only [dotRuns]
  rw [if_pos trivial, htw, hdw, if_neg hne]

theorem dotRuns_two (m : Nat) {d2 d3 : List Char}
    (h2 : ¬ d2 = []) (ha2 : d2.all isDigitChar = true)
    (h3 : ¬ d3 = []) (ha3 : d3.all isDigitChar = true) :
    dotRuns (m + 1 + 1) ('.' :: (d2 ++ '.' :: d3)) = ([d2, d3], []) := by
  rw [dotRuns_cons (m + 1) d2 ('.' :: d3) h2 ha2
    (List.takeWhile_cons_of_neg (by decide))]
  have h3x : dotRuns (m + 1) ('.' :: d3) = ([d3], []) := by
    have he : ('.' :: d3 : List Char) = '.' :: (d3 ++ []) := by simp
    rw [he, dotRuns_cons m d3 [] h3 ha3 rfl, dotRuns_nil]
  rw [h3x]

theorem parseBase_bs {d1 d2 d3 : List Char}
    (h1 : ¬ d1 = []) (ha1 : d1.all isDigitChar = true)
    (h2 : ¬ d2 = []) (ha2 : d2.all isDigitChar = true)
    (h3 : ¬ d3 = []) (ha3 : d3.all isDigitChar = true) :
    parseBase (d1 ++ '.' :: (d2 ++ '.' :: d3))
      = some (digitsToNat d1, digitsToNat d2, digitsToNat d3) := by
  have hm1 : ∀ a ∈ d1, isDigitChar a = true := List.all_eq_true.mp ha1
  obtain ⟨c, d1t, hd1⟩ : ∃ c d1t, d1 = c :: d1t := by
    cases d1 with
    | nil => exact absurd rfl h1
    | cons c t => exact ⟨c, t, rfl⟩
  have hc : isDigitChar c = true :=
    hm1 c (by rw [hd1]; exact List.mem_cons_self c d1t)
  have htw : (d1 ++ '.' :: (d2 ++ '.' :: d3)).takeWhile isDigitChar = d1 := by
    rw [takeWhile_append_all hm1, List.takeWhile_cons_of_neg (by decide),
      List.append_nil]
  have hdw : (d1 ++ '.' :: (d2 ++ '.' :: d3)).dropWhile isDigitChar
      = '.' :: (d2 ++ '.' :: d3) := by
    rw [dropWhile_append_all hm1, List.dropWhile_cons_of_neg (by decide)]
  have hA : (d1 ++ '.' :: (d2 ++ '.' :: d3)).dropWhile isWsChar
      = d1 ++ '.' :: (d2 ++ '.' :: d3) := by
    rw [hd1, List.cons_append]
    exact List.dropWhile_cons_of_neg (by simp [digit_not_ws hc])
  have hB : stripV (d1 ++ '.' :: (d2 ++ '.' :: d3))
      = d1 ++ '.' :: (d2 ++ '.' :: d3) := by
    rw [hd1, List.cons_append]
    simp only [stripV]
    rw [if_neg]
    rintro (hv | hv) <;> (subst hv; exact absurd hc (by decide))
  have hD : stripEpoch (d1 ++ '.' :: (d2 ++ '.' :: d3))
      = d1 ++ '.' :: (d2 ++ '.' :: d3) := by
    unfold stripEpoch
    rw [htw, hdw, if_neg h1, if_neg (by simp)]
  have hlen : (d1 ++ '.' :: (d2 ++ '.' :: d3)).length
      = (d1.length + d2.length + d3.length) + 1 + 1 := by
    simp only [List.length_append, List.length_cons]
    omega
  unfold parseBase
  rw [hA, hB, hD]
  unfold pep440Release
  rw [htw, if_neg h1, hdw, hlen,
    dotRuns_two (d1.length + d2.length + d3.length) h2 ha2 h3 ha3,
    if_pos (by rfl)]
  simp

theorem bs_map_toLower {d1 d2 d3 : List Char}
    (ha1 : d1.all isDigitChar = true) (ha2 : d2.all isDigitChar = true)
    (ha3 : d3.all isDigitChar = true) :
    (d1 ++ '.' :: (d2 ++ '.' :: d3)).map Char.toLower
      = d1 ++ '.' :: (d2 ++ '.' :: d3) := by
  have hdot : Char.toLower '.' = '.' := by decide
  simp [List.map_append, map_toLower_digits ha1, map_toLower_digits ha2,
    map_toLower_digits ha3, hdot]

theorem getVersionKey_eval_stable {s base : List Char} {ma mi pa : Nat}
    (hhead : (splitDash s).headD [] = base)
    (hpb : parseBase base = some (ma, mi, pa))
    (hlow : s.map Char.toLower = s)
    (hrcF : containsSub s ['r', 'c'] = false)
    (hsnapF : containsSub s SNAPU = false) :
    getVersionKey s = some [ma, mi, pa, 3, 0] := by
  unfold getVersionKey
  rw [hhead, hpb]
  simp only [hlow, hrcF, hsnapF, Bool.false_eq_true, if_false]

theorem getVersionKey_eval_plainSnap {s base : List Char} {ma mi pa : Nat}
    {u : List Char}
    (hhead : (splitDash s).headD [] = base)
    (hpb : parseBase base = some (ma, mi, pa))
    (hlow : s.map Char.toLower = u)
    (hrcF : containsSub u ['r', 'c'] = false)
    (hsnapT : containsSub s SNAPU = true) :
    getVersionKey s = some [ma, mi, pa, 2, 0] := by
  unfold getVersionKey
  rw [hhead, hpb]
  simp only [hlow, hrcF, hsnapT, Bool.false_eq_true, if_false, if_true]

theorem getVersionKey_eval_rc {s base : List Char} {ma mi pa n : Nat}
    {u : List Char}
    (hhead : (splitDash s).headD [] = base)
    (hpb : parseBase base = some (ma, mi, pa))
    (hlow : s.map Char.toLower = u)
    (hrcT : containsSub u ['r', 'c'] = true)
    (hval : parseNatDigits
        ((splitDash (((splitRc u).tail).headD [])).headD []) = some n)
    (hsnapF : containsSub s SNAPU = false) :
    getVersionKey s = some [ma, mi, pa, 1, n] := by
  unfold getVersionKey
  rw [hhead, hpb]
  simp only [hlow, hrcT, hval, hsnapF, Bool.false_eq_true, if_false, if_true]

theorem getVersionKey_eval_rcSnap {s base : List Char} {ma mi pa n : Nat}
    {u : List Char}
    (hhead : (splitDash s).headD [] = base)
    (hpb : parseBase base = some (ma, mi, pa))
    (hlow : s.map Char.toLower = u)
    (hrcT : containsSub u ['r', 'c'] = true)
    (hval : parseNatDigits
        ((splitDash (((splitRc u).tail).headD [])).headD []) = some n)
    (hsnapT : containsSub s SNAPU = true) :
    getVersionKey s = some [ma, mi, pa, 0, n] := by
  unfold getVersionKey
  rw [hhead, hpb]
  simp only [hlow, hrcT, hval, hsnapT, if_true]

theorem getVersionKey_stable {d1 d2 d3 : List Char}
    (h1 : ¬ d1 = []) (ha1 : d1.all isDigitChar = true)
    (h2 : ¬ d2 = []) (ha2 : d2.all isDigitChar = true)
    (h3 : ¬ d3 = []) (ha3 : d3.all isDigitChar = true) :
    getVersionKey (d1 ++ '.' :: (d2 ++ '.' :: d3))
      = some [digitsToNat d1, digitsToNat d2, digitsToNat d3, 3, 0] := by
  refine getVersionKey_eval_stable ?_ (parseBase_bs h1 ha1 h2 ha2 h3 ha3)
    (bs_map_toLower ha1 ha2 ha3) ?_ ?_
  · rw [splitDash_all_ne (bs_all_ne '-' (by decide) (by decide) ha1 ha2 ha3)]
    rfl
  · exact containsSub_eq_false 'r' _
      (bs_all_ne 'r' (by decide) (by decide) ha1 ha2 ha3)
  · have h4 := containsSub_eq_false 'S' ['N', 'A', 'P', 'S', 'H', 'O', 'T']
      (bs_all_ne 'S' (by decide) (by decide) ha1 ha2 ha3)
    simpa [SNAPU] using h4

theorem getVersionKey_plainSnap {d1 d2 d3 : List Char}
    (h1 : ¬ d1 = []) (ha1 : d1.all isDigitChar = true)
    (h2 : ¬ d2 = []) (ha2 : d2.all isDigitChar = true)
    (h3 : ¬ d3 = []) (ha3 : d3.all isDigitChar = true) :
    getVersionKey ((d1 ++ '.' :: (d2 ++ '.' :: d3)) ++ '-' :: SNAPU)
      = some [digitsToNat d1, digitsToNat d2, digitsToNat d3, 2, 0] := by
  refine getVersionKey_eval_plainSnap
    (u := (d1 ++ '.' :: (d2 ++ '.' :: d3))
      ++ '-' :: ['s', 'n', 'a', 'p', 's', 'h', 'o', 't'])
    ?_ (parseBase_bs h1 ha1 h2 ha2 h3 ha3) ?_ ?_ ?_
  · rw [splitDash_append _ (bs_all_ne '-' (by decide) (by decide) ha1 ha2 ha3)]
    rw [SNAPU, splitDash_cons_dash]
    simp
  · have hconc : ('-' :: SNAPU).map Char.toLower
        = '-' :: ['s', 'n', 'a', 'p', 's', 'h', 'o', 't'] := by decide
    rw [List.map_append, bs_map_toLower ha1 ha2 ha3, hconc]
  · apply containsSub_eq_false
    rw [List.all_append, bs_all_ne 'r' (by decide) (by decide) ha1 ha2 ha3]
    decide
  · have he : (d1 ++ '.' :: (d2 ++ '.' :: d3)) ++ '-' :: SNAPU
        = ((d1 ++ '.' :: (d2 ++ '.' :: d3)) ++ ['-']) ++ SNAPU ++ [] := by
      simp
    rw [he]
    exact containsSub_of_append _ _ _

theorem parseNatDigits_of {ds : List Char} (hds : ¬ ds = [])
    (hads : ds.all isDigitChar = true) :
    parseNatDigits ds = some (digitsToNat ds) := by
  unfold parseNatDigits
  rw [if_pos ⟨hds, hads⟩]

theorem getVersionKey_rc {d1 d2 d3 ds : List Char}
    (h1 : ¬ d1 = []) (ha1 : d1.all isDigitChar = true)
    (h2 : ¬ d2 = []) (ha2 : d2.all isDigitChar = true)
    (h3 : ¬ d3 = []) (ha3 : d3.all isDigitChar = true)
    (hds : ¬ ds = []) (hads : ds.all isDigitChar = true) :
    getVersionKey ((d1 ++ '.' :: (d2 ++ '.' :: d3)) ++ '-' :: 'r' :: 'c' :: ds)
      = some [digitsToNat d1, digitsToNat d2, digitsToNat d3, 1,
          digitsToNat ds] := by
  have hnr : ((d1 ++ '.' :: (d2 ++ '.' :: d3)) ++ ['-']).all
      (fun x => ¬ x = 'r') = true := by
    rw [List.all_append, bs_all_ne 'r' (by decide) (by decide) ha1 ha2 ha3]
    decide
  refine getVersionKey_eval_rc
    (u := (d1 ++ '.' :: (d2 ++ '.' :: d3)) ++ '-' :: 'r' :: 'c' :: ds)
    ?_ (parseBase_bs h1 ha1 h2 ha2 h3 ha3) ?_ ?_ ?_ ?_
  · rw [splitDash_append _ (bs_all_ne '-' (by decide) (by decide) ha1 ha2 ha3),
      splitDash_cons_dash]
    simp
  · have hr : Char.toLower '-' = '-' := by decide
    have h5 : Char.toLower 'r' = 'r' := by decide
    have h6 : Char.toLower 'c' = 'c' := by decide
    rw [List.map_append, bs_map_toLower ha1 ha2 ha3]
    simp [map_toLower_digits hads, hr, h5, h6]
  · have he : (d1 ++ '.' :: (d2 ++ '.' :: d3)) ++ '-' :: 'r' :: 'c' :: ds
        = ((d1 ++ '.' :: (d2 ++ '.' :: d3)) ++ ['-']) ++ ['r', 'c'] ++ ds := by
      simp
    rw [he]
    exact containsSub_of_append _ _ _
  · have he : (d1 ++ '.' :: (d2 ++ '.' :: d3)) ++ '-' :: 'r' :: 'c' :: ds
        = ((d1 ++ '.' :: (d2 ++ '.' :: d3)) ++ ['-']) ++ 'r' :: 'c' :: ds := by
      simp
    rw [he, splitRc_append _ hnr, splitRc_rc,
      splitRc_all_ne (all_digit_ne 'r' (by decide) hads)]
    simp only [List.headD_cons, List.tail_cons]
    rw [splitDash_all_ne (all_digit_ne '-' (by decide) hads)]
    simp only [List.headD_cons]
    exact parseNatDigits_of hds hads
  · have hallS : ((d1 ++ '.' :: (d2 ++ '.' :: d3)) ++ '-' :: 'r' :: 'c' :: ds).all
        (fun x => ¬ x = 'S') = true := by
      rw [List.all_append, bs_all_ne 'S' (by decide) (by decide) ha1 ha2 ha3]
      simp only [List.all_cons, all_digit_ne 'S' (by decide) hads]
      decide
    have h7 := containsSub_eq_false 'S' ['N', 'A', 'P', 'S', 'H', 'O', 'T'] hallS
    simpa [SNAPU] using h7

theorem getVersionKey_rcSnap {d1 d2 d3 ds : List Char}
    (h1 : ¬ d1 = []) (ha1 : d1.all isDigitChar = true)
    (h2 : ¬ d2 = []) (ha2 : d2.all isDigitChar = true)
    (h3 : ¬ d3 = []) (ha3 : d3.all isDigitChar = true)
    (hds : ¬ ds = []) (hads : ds.all isDigitChar = true) :
    getVersionKey (((d1 ++ '.' :: (d2 ++ '.' :: d3)) ++ '-' :: 'r' :: 'c' :: ds)
        ++ '-' :: SNAPU)
      = some [digitsToNat d1, digitsToNat d2, digitsToNat d3, 0,
          digitsToNat ds] := by
  have hnr : ((d1 ++ '.' :: (d2 ++ '.' :: d3)) ++ ['-']).all
      (fun x => ¬ x = 'r') = true := by
    rw [List.all_append, bs_all_ne 'r' (by decide) (by decide) ha1 ha2 ha3]
    decide
  have hsplitRcSnap : splitRc ('-' :: ['s', 'n', 'a', 'p', 's', 'h', 'o', 't'])
      = [('-' :: ['s', 'n', 'a', 'p', 's', 'h', 'o', 't'])] := by decide
  refine getVersionKey_eval_rcSnap
    (u := ((d1 ++ '.' :: (d2 ++ '.' :: d3)) ++ '-' :: 'r' :: 'c' :: ds)
      ++ '-' :: ['s', 'n', 'a', 'p', 's', 'h', 'o', 't'])
    ?_ (parseBase_bs h1 ha1 h2 ha2 h3 ha3) ?_ ?_ ?_ ?_
  · have he : ((d1 ++ '.' :: (d2 ++ '.' :: d3)) ++ '-' :: 'r' :: 'c' :: ds)
        ++ '-' :: SNAPU
        = (d1 ++ '.' :: (d2 ++ '.' :: d3))
          ++ '-' :: ('r' :: 'c' :: ds ++ '-' :: SNAPU) := by
      simp
    rw [he, splitDash_append _
      (bs_all_ne '-' (by decide) (by decide) ha1 ha2 ha3), splitDash_cons_dash]
    simp
  · have hr : Char.toLower '-' = '-' := by decide
    have h5 : Char.toLower 'r' = 'r' := by decide
    have h6 : Char.toLower 'c' = 'c' := by decide
    have hconc : ('-' :: SNAPU).map Char.toLower
        = '-' :: ['s', 'n', 'a', 'p', 's', 'h', 'o', 't'] := by decide
    rw [List.map_append, List.map_append, bs_map_toLower ha1 ha2 ha3, hconc]
    simp [map_toLower_digits hads, hr, h5, h6]
  · have he : ((d1 ++ '.' :: (d2 ++ '.' :: d3)) ++ '-' :: 'r' :: 'c' :: ds)
        ++ '-' :: ['s', 'n', 'a', 'p', 's', 'h', 'o', 't']
        = ((d1 ++ '.' :: (d2 ++ '.' :: d3)) ++ ['-']) ++ ['r', 'c']
          ++ (ds ++ '-' :: ['s', 'n', 'a', 'p', 's', 'h', 'o', 't']) := by
      simp
    rw [he]
    exact containsSub_of_append _ _ _
  · have he : ((d1 ++ '.' :: (d2 ++ '.' :: d3)) ++ '-' :: 'r' :: 'c' :: ds)
        ++ '-' :: ['s', 'n', 'a', 'p', 's', 'h', 'o', 't']
        = ((d1 ++ '.' :: (d2 ++ '.' :: d3)) ++ ['-'])
          ++ 'r' :: 'c' :: (ds ++ '-' :: ['s', 'n', 'a', 'p', 's', 'h', 'o', 't']) := by
      simp
    rw [he, splitRc_append _ hnr, splitRc_rc,
      splitRc_append _ (all_digit_ne 'r' (by decide) hads), hsplitRcSnap]
    simp only [List.headD_cons, List.tail_cons]
    rw [splitDash_append _ (all_digit_ne '-' (by decide) hads),
      splitDash_cons_dash]
    simp only [List.headD_cons, List.append_nil]
    exact parseNatDigits_of hds hads
  · have he : ((d1 ++ '.' :: (d2 ++ '.' :: d3)) ++ '-' :: 'r' :: 'c' :: ds)
        ++ '-' :: SNAPU
        = (((d1 ++ '.' :: (d2 ++ '.' :: d3)) ++ '-' :: 'r' :: 'c' :: ds)
          ++ ['-']) ++ SNAPU ++ [] := by
      simp
    rw [he]
    exact containsSub_of_append _ _ _

/-- Witness for C3 (amended), exercising the rc branch and the no-rc branch
on concrete configuration texts. -/
theorem c3_rc_overrides_snapshot_witness :
    (doxParseCmakeVersion
        "PROJECT(K VERSION 2.1.0)\nSET(RC_VERSION \"1\")\n".data
      = some ("2.1.0".data ++ '-' :: 'r' :: 'c' :: "1".data) ∧
      endsWithSnap ("2.1.0".data ++ '-' :: 'r' :: 'c' :: "1".data) = false) ∧
    (doxParseCmakeVersion "PROJECT(K VERSION 1.2.3)".data
      = some ("1.2.3".data ++ SNAPTAIL)) :=
  ⟨(c3_rc_overrides_snapshot
      "PROJECT(K VERSION 2.1.0)\nSET(RC_VERSION \"1\")\n".data
      "2.1.0".data (by decide)).2 "1".data (by decide),
    (((c3_rc_overrides_snapshot "PROJECT(K VERSION 1.2.3)".data
      "1.2.3".data (by decide)).1 (by decide)).1).mpr (by decide)⟩

/-! ### Decomposing a pattern-matching directory name -/

theorem takeDigits_decomp {l ds rest : List Char}
    (h : takeDigits l = some (ds, rest)) :
    l = ds ++ rest ∧ ¬ ds = [] ∧ ds.all isDigitChar = true := by
  unfold takeDigits at h
  by_cases he : l.takeWhile isDigitChar = []
  · rw [if_pos he] at h
    exact absurd h (by simp)
  · rw [if_neg he] at h
    simp only [Option.some.injEq, Prod.mk.injEq] at h
    refine ⟨?_, h.1 ▸ he, h.1 ▸ all_takeWhile isDigitChar l⟩
    rw [← h.1, ← h.2]
    exact (List.takeWhile_append_dropWhile isDigitChar l).symm

theorem expectChar_decomp {ch : Char} {l r : List Char}
    (h : expectChar ch l = some r) : l = ch :: r := by
  unfold expectChar at h
  rcases l with _ | ⟨c, cs⟩
  · exact absurd h (by simp)
  · simp only [] at h
    by_cases hc : c = ch
    · rw [if_pos hc] at h
      simp only [Option.some.injEq] at h
      rw [hc, h]
    · rw [if_neg hc] at h
      exact absurd h (by simp)

theorem parseTail_decomp {t : List Char} {rcOpt : Option Nat} {sn : Bool}
    (h : parseTail t = some (rcOpt, sn)) :
    (rcOpt = none ∧ sn = false ∧ t = []) ∨
    (rcOpt = none ∧ sn = true ∧ t = '-' :: SNAPU) ∨
    (∃ ds, ¬ ds = [] ∧ ds.all isDigitChar = true ∧
      rcOpt = some (digitsToNat ds) ∧
      ((sn = false ∧ t = '-' :: 'r' :: 'c' :: ds) ∨
       (sn = true ∧ t = ('-' :: 'r' :: 'c' :: ds) ++ '-' :: SNAPU))) := by
  unfold parseTail at h
  by_cases h0 : t = []
  · rw [if_pos h0] at h
    simp only [Option.some.injEq, Prod.mk.injEq] at h
    exact Or.inl ⟨h.1.symm, h.2.symm, h0⟩
  · rw [if_neg h0] at h
    by_cases h1 : t = SNAPTAIL
    · rw [if_pos h1] at h
      simp only [Option.some.injEq, Prod.mk.injEq] at h
      refine Or.inr (Or.inl ⟨h.1.symm, h.2.symm, ?_⟩)
      rw [h1]
      rfl
    · rw [if_neg h1] at h
      by_cases h2 : startsWithL ['-', 'r', 'c'] t = true
      · rw [if_pos h2] at h
        obtain ⟨x, hx⟩ := startsWithL_exists h2
        have hdrop : t.drop 3 = x := by
          rw [hx]
          exact List.drop_left ['-', 'r', 'c'] x
        rw [hdrop] at h
        rcases htd : takeDigits x with _ | ⟨ds, rest2⟩
        · rw [htd] at h
          exact absurd h (by simp)
        · rw [htd] at h
          simp only [] at h
          obtain ⟨hsplit, hne, hall⟩ := takeDigits_decomp htd
          by_cases h3 : rest2 = []
          · rw [if_pos h3] at h
            simp only [Option.some.injEq, Prod.mk.injEq] at h
            refine Or.inr (Or.inr ⟨ds, hne, hall, h.1.symm,
              Or.inl ⟨h.2.symm, ?_⟩⟩)
            rw [hx, hsplit, h3, List.append_nil]
            rfl
          · rw [if_neg h3] at h
            by_cases h4 : rest2 = SNAPTAIL
            · rw [if_pos h4] at h
              simp only [Option.some.injEq, Prod.mk.injEq] at h
              refine Or.inr (Or.inr ⟨ds, hne, hall, h.1.symm,
                Or.inr ⟨h.2.symm, ?_⟩⟩)
              rw [hx, hsplit, h4]
              simp [SNAPTAIL]
            · rw [if_neg h4] at h
              exact absurd h (by simp)
      · rw [if_neg (by simpa using h2)] at h
        exact absurd h (by simp)

theorem classify_decomp {s : List Char} {ma mi pa : Nat} {rcOpt : Option Nat}
    {sn : Bool} (h : classify s = some ((ma, mi, pa), rcOpt, sn)) :
    ∃ d1 d2 d3 t, s = d1 ++ '.' :: (d2 ++ '.' :: (d3 ++ t)) ∧
      (¬ d1 = [] ∧ d1.all isDigitChar = true) ∧
      (¬ d2 = [] ∧ d2.all isDigitChar = true) ∧
      (¬ d3 = [] ∧ d3.all isDigitChar = true) ∧
      ma = digitsToNat d1 ∧ mi = digitsToNat d2 ∧ pa = digitsToNat d3 ∧
      parseTail t = some (rcOpt, sn) := by
  unfold classify at h
  rcases h1 : takeDigits s with _ | ⟨d1, r1⟩
  · rw [h1] at h
    exact absurd h (by simp)
  rw [h1] at h
  simp only [] at h
  rcases h2 : expectChar '.' r1 with _ | r1b
  · rw [h2] at h
    exact absurd h (by simp)
  rw [h2] at h
  simp only [] at h
  rcases h3 : takeDigits r1b with _ | ⟨d2, r2⟩
  · rw [h3] at h
    exact absurd h (by simp)
  rw [h3] at h
  simp only [] at h
  rcases h4 : expectChar '.' r2 with _ | r2b
  · rw [h4] at h
    exact absurd h (by simp)
  rw [h4] at h
  simp only [] at h
  rcases h5 : takeDigits r2b with _ | ⟨d3, r3⟩
  · rw [h5] at h
    exact absurd h (by simp)
  rw [h5] at h
  simp only [] at h
  rcases h6 : parseTail r3 with _ | tv
  · rw [h6] at h
    exact absurd h (by simp)
  rw [h6] at h
  simp only [Option.map_some', Option.some.injEq, Prod.mk.injEq] at h
  obtain ⟨hd1, hne1, hall1⟩ := takeDigits_decomp h1
  obtain ⟨hd2, hne2, hall2⟩ := takeDigits_decomp h3
  obtain ⟨hd3, hne3, hall3⟩ := takeDigits_decomp h5
  have hr1 : r1 = '.' :: r1b := expectChar_decomp h2
  have hr2 : r2 = '.' :: r2b := expectChar_decomp h4
  refine ⟨d1, d2, d3, r3, ?_, ⟨hne1, hall1⟩, ⟨hne2, hall2⟩, ⟨hne3, hall3⟩,
    ?_, ?_, ?_, ?_⟩
  · rw [hd1, hr1, hd2, hr2, hd3]
  · exact h.1.1.symm
  · exact h.1.2.1.symm
  · exact h.1.2.2.symm
  · rw [h6, h.2]

/-- The central bridge: the `_get_version_key` of every name accepted by the
version-directory pattern is defined (no exception), and equals the base
triple followed by the category weight and the rc tie-break. -/
theorem getVersionKey_classify {s : List Char} {ma mi pa : Nat}
    {rcOpt : Option Nat} {sn : Bool}
    (h : classify s = some ((ma, mi, pa), rcOpt, sn)) :
    getVersionKey s = some [ma, mi, pa, rankW rcOpt sn, rcVal rcOpt] := by
  obtain ⟨d1, d2, d3, t, hs, ⟨hne1, hall1⟩, ⟨hne2, hall2⟩, ⟨hne3, hall3⟩,
    hma, hmi, hpa, ht⟩ := classify_decomp h
  subst hma; subst hmi; subst hpa
  rcases parseTail_decomp ht with ⟨hrc, hsn, hteq⟩ | ⟨hrc, hsn, hteq⟩ |
    ⟨ds, hneds, hallds, hrc, ⟨hsn, hteq⟩ | ⟨hsn, hteq⟩⟩
  · subst hrc; subst hsn; subst hteq
    have he : s = d1 ++ '.' :: (d2 ++ '.' :: d3) := by
      rw [hs]
      simp
    rw [he, rankW, rcVal]
    exact getVersionKey_stable hne1 hall1 hne2 hall2 hne3 hall3
  · subst hrc; subst hsn; subst hteq
    have he : s = (d1 ++ '.' :: (d2 ++ '.' :: d3)) ++ '-' :: SNAPU := by
      rw [hs]
      simp
    rw [he, rankW, rcVal]
    exact getVersionKey_plainSnap hne1 hall1 hne2 hall2 hne3 hall3
  · subst hrc; subst hsn; subst hteq
    have he : s = (d1 ++ '.' :: (d2 ++ '.' :: d3)) ++ '-' :: 'r' :: 'c' :: ds := by
      rw [hs]
      simp
    rw [he, rankW, rcVal]
    exact getVersionKey_rc hne1 hall1 hne2 hall2 hne3 hall3 hneds hallds
  · subst hrc; subst hsn; subst hteq
    have he : s = ((d1 ++ '.' :: (d2 ++ '.' :: d3)) ++ '-' :: 'r' :: 'c' :: ds)
        ++ '-' :: SNAPU := by
      rw [hs]
      simp
    rw [he, rankW, rcVal]
    exact getVersionKey_rcSnap hne1 hall1 hne2 hall2 hne3 hall3 hneds hallds

/-! ### C10: the order key is total on pattern-matching names -/

theorem attachKeys_some {names : List (List Char)}
    (h : ∀ x ∈ names, (getVersionKey x).isSome = true) :
    (attachKeys names).isSome = true := by
  induction names with
  | nil => rfl
  | cons s rest ih =>
    have hs := h s (by simp)
    have hr := ih (fun x hx => h x (by simp [hx]))
    unfold attachKeys
    rcases hks : getVersionKey s with _ | k
    · rw [hks] at hs
      exact absurd hs (by simp)
    · rcases har : attachKeys rest with _ | ps
      · rw [har] at hr
        exact absurd hr (by simp)
      · simp

/-- C10: on every directory name accepted by the version pattern, computing
the order key raises no exception — the base-triple parse, the rc extraction
and the tuple construction all succeed, yielding a full five-component key —
so sorting any list of pattern-matching names is total. -/
theorem c10_key_total (names : List (List Char))
    (h : ∀ x ∈ names, versionPattern x = true) :
    (∀ x ∈ names, ∃ ma mi pa w r, getVersionKey x = some [ma, mi, pa, w, r]) ∧
    (mostRecentFirst names).isSome = true := by
  have hkey : ∀ x ∈ names,
      ∃ ma mi pa w r, getVersionKey x = some [ma, mi, pa, w, r] := by
    intro x hx
    have hp := h x hx
    unfold versionPattern at hp
    rcases hc : classify x with _ | ⟨⟨ma, mi, pa⟩, rcOpt, sn⟩
    · rw [hc] at hp
      exact absurd hp (by simp)
    · exact ⟨ma, mi, pa, rankW rcOpt sn, rcVal rcOpt, getVersionKey_classify hc⟩
  refine ⟨hkey, ?_⟩
  unfold mostRecentFirst
  have ha := attachKeys_some (fun x hx => by
    obtain ⟨ma, mi, pa, w, r, hk⟩ := hkey x hx
    rw [hk]
    rfl)
  rcases hat : attachKeys names with _ | ps
  · rw [hat] at ha
    exact absurd ha (by simp)
  · simp

/-- Witness for C10 on a concrete set of pattern-matching names. -/
theorem c10_key_total_witness :
    (mostRecentFirst ["2.1.0".data, "2.1.0-rc2-SNAPSHOT".data,
        "3.0.0-rc1".data, "0.9.1-SNAPSHOT".data]).isSome = true :=
  (c10_key_total
    ["2.1.0".data, "2.1.0-rc2-SNAPSHOT".data, "3.0.0-rc1".data,
      "0.9.1-SNAPSHOT".data] (by decide)).2

/-! ### C6: the `latest` alias update condition -/

/-- C6: for a grammar-conforming incoming version, the `latest` symlink is
(re)pointed exactly when the version carries neither an rc marker nor the
snapshot marker — a true final release; snapshots and release candidates
leave `latest` untouched. -/
theorem c6_latest_iff_final (s : List Char) (b : Nat × Nat × Nat)
    (rcOpt : Option Nat) (sn : Bool)
    (h : classify s = some (b, rcOpt, sn)) :
    updatesLatest s = true ↔ (rcOpt = none ∧ sn = false) := by
  obtain ⟨ma, mi, pa⟩ := b
  obtain ⟨d1, d2, d3, t, hs, ⟨hne1, hall1⟩, ⟨hne2, hall2⟩, ⟨hne3, hall3⟩,
    hma, hmi, hpa, ht⟩ := classify_decomp h
  rcases parseTail_decomp ht with ⟨hrc, hsn, hteq⟩ | ⟨hrc, hsn, hteq⟩ |
    ⟨ds, hneds, hallds, hrc, ⟨hsn, hteq⟩ | ⟨hsn, hteq⟩⟩
  · subst hrc; subst hsn; subst hteq
    have he : s = d1 ++ '.' :: (d2 ++ '.' :: d3) := by
      rw [hs]
      simp
    have hc1 : containsSub s SNAPTAIL = false := by
      rw [he]
      unfold SNAPTAIL
      exact containsSub_eq_false '-' _
        (bs_all_ne '-' (by decide) (by decide) hall1 hall2 hall3)
    have hc2 : containsSub s ['-', 'r', 'c'] = false := by
      rw [he]
      exact containsSub_eq_false '-' _
        (bs_all_ne '-' (by decide) (by decide) hall1 hall2 hall3)
    simp [updatesLatest, hc1, hc2]
  · subst hrc; subst hsn; subst hteq
    have he : s = ((d1 ++ '.' :: (d2 ++ '.' :: d3)) ++ SNAPTAIL) ++ [] := by
      rw [hs]
      simp [SNAPTAIL]
    have hc1 : containsSub s SNAPTAIL = true := by
      rw [he]
      exact containsSub_of_append _ _ _
    simp [updatesLatest, hc1]
  · subst hrc; subst hsn; subst hteq
    have he : s = (d1 ++ '.' :: (d2 ++ '.' :: d3)) ++ ['-', 'r', 'c'] ++ ds := by
      rw [hs]
      simp
    have hc2 : containsSub s ['-', 'r', 'c'] = true := by
      rw [he]
      exact containsSub_of_append _ _ _
    simp [updatesLatest, hc2]
  · subst hrc; subst hsn; subst hteq
    have he : s = (d1 ++ '.' :: (d2 ++ '.' :: d3)) ++ ['-', 'r', 'c']
        ++ (ds ++ '-' :: SNAPU) := by
      rw [hs]
      simp
    have hc2 : containsSub s ['-', 'r', 'c'] = true := by
      rw [he]
      exact containsSub_of_append _ _ _
    simp [updatesLatest, hc2]

/-- Witness for C6: publishing a final `2.1.0` updates `latest`; an rc and a
snapshot never do. -/
theorem c6_latest_iff_final_witness :
    updatesLatest "2.1.0".data = true ∧
    ¬ updatesLatest "2.1.0-rc1".data = true ∧
    ¬ updatesLatest "2.1.0-SNAPSHOT".data = true := by
  refine ⟨?_, ?_, ?_⟩
  · exact (c6_latest_iff_final "2.1.0".data (2, 1, 0) none false
      (by decide)).mpr ⟨rfl, rfl⟩
  · intro hc
    have h := (c6_latest_iff_final "2.1.0-rc1".data (2, 1, 0) (some 1) false
      (by decide)).mp hc
    exact absurd h.1 (by simp)
  · intro hc
    have h := (c6_latest_iff_final "2.1.0-SNAPSHOT".data (2, 1, 0) none true
      (by decide)).mp hc
    exact absurd h.2 (by simp)

/-! ### C1 and C8: the most-recent-first order -/

theorem keyLt_same_base {a b c x y z w : Nat} :
    keyLt [a, b, c, x, y] [a, b, c, z, w] = true ↔ (x < z ∨ (x = z ∧ y < w)) := by
  simp [keyLt]

theorem rankW_amendedPos (rcOpt : Option Nat) (sn : Bool) :
    rankW rcOpt sn + amendedPos (rcOpt, sn) = 3 := by
  cases rcOpt <;> cases sn <;> rfl

theorem mostRecentFirst_pair {s t : List Char} {ks kt : List Nat}
    (hs : getVersionKey s = some ks) (ht : getVersionKey t = some kt)
    (hlt : keyLt kt ks = true) (hnlt : keyLt ks kt = false) :
    mostRecentFirst [s, t] = some [s, t] ∧
    mostRecentFirst [t, s] = some [s, t] := by
  constructor
  · unfold mostRecentFirst
    have hat : attachKeys [s, t] = some [(s, ks), (t, kt)] := by
      simp [attachKeys, hs, ht]
    rw [hat]
    simp [isortV, insertV, hlt]
  · unfold mostRecentFirst
    have hat : attachKeys [t, s] = some [(t, kt), (s, ks)] := by
      simp [attachKeys, hs, ht]
    rw [hat]
    simp [isortV, insertV, hnlt]

/-- Counterexample to C1: with the base-2.1.0 directories `2.1.0`,
`2.1.0-rc1` and `2.1.0-SNAPSHOT`, the code lists the plain snapshot second
(right after the stable version), not last as the claim states. -/
theorem c1_counterexample :
    mostRecentFirst ["2.1.0-SNAPSHOT".data, "2.1.0".data, "2.1.0-rc1".data]
      = some ["2.1.0".data, "2.1.0-SNAPSHOT".data, "2.1.0-rc1".data] ∧
    ¬ mostRecentFirst ["2.1.0-SNAPSHOT".data, "2.1.0".data, "2.1.0-rc1".data]
      = some ["2.1.0".data, "2.1.0-rc1".data, "2.1.0-SNAPSHOT".data] := by
  decide

/-- C1 (amended): for one base triple the most-recent-first listing is the
stable version first, then the plain snapshot, then released candidates with
higher rc numbers first, then snapshot candidates with higher rc numbers
first; in particular, the directories `2.1.0`, `2.1.0-rc2`,
`2.1.0-rc2-SNAPSHOT`, `2.1.0-rc1-SNAPSHOT` are listed exactly in that
order. -/
theorem c1_per_base_order :
    (mostRecentFirst ["2.1.0".data, "2.1.0-rc2".data,
        "2.1.0-rc2-SNAPSHOT".data, "2.1.0-rc1-SNAPSHOT".data]
      = some ["2.1.0".data, "2.1.0-rc2".data, "2.1.0-rc2-SNAPSHOT".data,
        "2.1.0-rc1-SNAPSHOT".data]) ∧
    (∀ s₁ s₂ : List Char, ∀ b : Nat × Nat × Nat, ∀ p₁ p₂ : Option Nat × Bool,
      classify s₁ = some (b, p₁) → classify s₂ = some (b, p₂) →
      amendedBefore p₁ p₂ →
      mostRecentFirst [s₁, s₂] = some [s₁, s₂] ∧
      mostRecentFirst [s₂, s₁] = some [s₁, s₂]) := by
  constructor
  · decide
  · intro s₁ s₂ b p₁ p₂ h₁ h₂ hab
    obtain ⟨ma, mi, pa⟩ := b
    obtain ⟨rc₁, sn₁⟩ := p₁
    obtain ⟨rc₂, sn₂⟩ := p₂
    have hk₁ := getVersionKey_classify h₁
    have hk₂ := getVersionKey_classify h₂
    have e₁ := rankW_amendedPos rc₁ sn₁
    have e₂ := rankW_amendedPos rc₂ sn₂
    unfold amendedBefore at hab
    simp only [] at hab
    have hlt : keyLt [ma, mi, pa, rankW rc₂ sn₂, rcVal rc₂]
        [ma, mi, pa, rankW rc₁ sn₁, rcVal rc₁] = true := by
      rw [keyLt_same_base]
      omega
    have hnlt : keyLt [ma, mi, pa, rankW rc₁ sn₁, rcVal rc₁]
        [ma, mi, pa, rankW rc₂ sn₂, rcVal rc₂] = false := by
      rcases hc : keyLt [ma, mi, pa, rankW rc₁ sn₁, rcVal rc₁]
          [ma, mi, pa, rankW rc₂ sn₂, rcVal rc₂] with _ | _
      · rfl
      · rw [keyLt_same_base] at hc
        omega
    exact mostRecentFirst_pair hk₁ hk₂ hlt hnlt

/-- Witness for C1 (amended): a released candidate is listed before the
snapshot candidate of the same rc number, whatever the input order. -/
theorem c1_per_base_order_witness :
    mostRecentFirst ["2.1.0-rc1".data, "2.1.0-rc1-SNAPSHOT".data]
      = some ["2.1.0-rc1".data, "2.1.0-rc1-SNAPSHOT".data] ∧
    mostRecentFirst ["2.1.0-rc1-SNAPSHOT".data, "2.1.0-rc1".data]
      = some ["2.1.0-rc1".data, "2.1.0-rc1-SNAPSHOT".data] :=
  c1_per_base_order.2 "2.1.0-rc1".data "2.1.0-rc1-SNAPSHOT".data (2, 1, 0)
    (some 1, false) (some 1, true) (by decide) (by decide) (Or.inl (by decide))

theorem getVersionKey_shape {t : List Char} {kt : List Nat}
    (ht : getVersionKey t = some kt) :
    kt = [0, 0, 0, 999] ∨ ∃ a b c w r, kt = [a, b, c, w, r] ∧ w ≤ 3 := by
  unfold getVersionKey at ht
  rcases hpb : parseBase ((splitDash t).headD []) with _ | ⟨ma, mi, pa⟩
  · rw [hpb] at ht
    simp only [Option.some.injEq] at ht
    exact Or.inl ht.symm
  · rw [hpb] at ht
    simp only [] at ht
    by_cases h1 : containsSub (t.map Char.toLower) ['r', 'c'] = true
    · rw [if_pos h1] at ht
      rcases hpn : parseNatDigits
          ((splitDash (((splitRc (t.map Char.toLower)).tail).headD [])).headD [])
          with _ | n
      · rw [hpn] at ht
        exact absurd ht (by simp)
      · rw [hpn] at ht
        simp only [] at ht
        by_cases h2 : containsSub t SNAPU = true
        · rw [if_pos h2] at ht
          simp only [Option.some.injEq] at ht
          exact Or.inr ⟨ma, mi, pa, 0, n, ht.symm, by omega⟩
        · rw [if_neg h2] at ht
          simp only [Option.some.injEq] at ht
          exact Or.inr ⟨ma, mi, pa, 1, n, ht.symm, by omega⟩
    · rw [if_neg h1] at ht
      by_cases h2 : containsSub t SNAPU = true
      · rw [if_pos h2] at ht
        simp only [Option.some.injEq] at ht
        exact Or.inr ⟨ma, mi, pa, 2, 0, ht.symm, by omega⟩
      · rw [if_neg h2] at ht
        simp only [Option.some.injEq] at ht
        exact Or.inr ⟨ma, mi, pa, 3, 0, ht.symm, by omega⟩

theorem keyLt_sentinel {a b c w r : Nat} (hw : w ≤ 3) :
    (keyLt [a, b, c, w, r] [0, 0, 0, 999] = true ↔ (a = 0 ∧ b = 0 ∧ c = 0)) ∧
    (keyLt [0, 0, 0, 999] [a, b, c, w, r] = true
      ↔ ¬ (a = 0 ∧ b = 0 ∧ c = 0)) := by
  constructor <;> (simp [keyLt]; omega)

/-- Counterexample to C8: the name `abc`, whose base triple fails to parse,
receives the sentinel key but is listed before the valid version `0.0.0`,
not strictly after every valid version. -/
theorem c8_counterexample :
    mostRecentFirst ["0.0.0".data, "abc".data]
      = some ["abc".data, "0.0.0".data] ∧
    ¬ mostRecentFirst ["0.0.0".data, "abc".data]
      = some ["0.0.0".data, "abc".data] := by
  decide

/-- C8 (amended): a name whose base triple fails to parse numerically
receives the sentinel key `(0, 0, 0, 999)`, and in the most-recent-first
listing it appears strictly after every valid version whose major.minor.patch
triple differs from `(0, 0, 0)`, but strictly before every valid version
whose triple is exactly `0.0.0`. -/
theorem c8_sentinel_order (s t : List Char) (kt : List Nat)
    (hs : parseBase ((splitDash s).headD []) = none)
    (ht : getVersionKey t = some kt) (hv : ¬ kt = [0, 0, 0, 999]) :
    getVersionKey s = some [0, 0, 0, 999] ∧
    (¬ kt.take 3 = [0, 0, 0] →
      mostRecentFirst [t, s] = some [t, s] ∧
      mostRecentFirst [s, t] = some [t, s]) ∧
    (kt.take 3 = [0, 0, 0] →
      mostRecentFirst [s, t] = some [s, t] ∧
      mostRecentFirst [t, s] = some [s, t]) := by
  have hks : getVersionKey s = some [0, 0, 0, 999] := by
    unfold getVersionKey
    rw [hs]
  rcases getVersionKey_shape ht with h | ⟨a, b, c, w, r, hsh, hw⟩
  · exact absurd h hv
  subst hsh
  have htake : ([a, b, c, w, r].take 3 = [0, 0, 0]) ↔ (a = 0 ∧ b = 0 ∧ c = 0) := by
    simp
  refine ⟨hks, ?_, ?_⟩
  · intro hne
    rw [htake] at hne
    have hlt : keyLt [0, 0, 0, 999] [a, b, c, w, r] = true :=
      ((keyLt_sentinel hw).2).mpr hne
    have hnlt : keyLt [a, b, c, w, r] [0, 0, 0, 999] = false := by
      rcases hc : keyLt [a, b, c, w, r] [0, 0, 0, 999] with _ | _
      · rfl
      · rw [(keyLt_sentinel hw).1] at hc
        exact absurd hc hne
    exact mostRecentFirst_pair ht hks hlt hnlt
  · intro heq
    rw [htake] at heq
    have hlt : keyLt [a, b, c, w, r] [0, 0, 0, 999] = true :=
      ((keyLt_sentinel hw).1).mpr heq
    have hnlt : keyLt [0, 0, 0, 999] [a, b, c, w, r] = false := by
      rcases hc : keyLt [0, 0, 0, 999] [a, b, c, w, r] with _ | _
      · rfl
      · rw [(keyLt_sentinel hw).2] at hc
        exact absurd heq hc
    exact mostRecentFirst_pair hks ht hlt hnlt

/-- Witness for C8 (amended): `not-a-version` is listed after `1.0.0` but
before `0.0.0`. -/
theorem c8_sentinel_order_witness :
    getVersionKey "abc".data = some [0, 0, 0, 999] ∧
    mostRecentFirst ["1.0.0".data, "abc".data]
      = some ["1.0.0".data, "abc".data] ∧
    mostRecentFirst ["abc".data, "0.0.0".data]
      = some ["abc".data, "0.0.0".data] := by
  have h1 := c8_sentinel_order "abc".data "1.0.0".data [1, 0, 0, 3, 0]
    (by decide) (by decide) (by decide)
  have h2 := c8_sentinel_order "abc".data "0.0.0".data [0, 0, 0, 3, 0]
    (by decide) (by decide) (by decide)
  exact ⟨h1.1, (h1.2.1 (by decide)).1, (h2.2.2 (by decide)).1⟩

/-! ### C4: the uncommented-line characterization of the multiline rc
search -/

theorem tryDescend_isSome_of {α : Type} {f : List Char → Option α} :
    ∀ {n k : Nat} {l : List Char}, k ≤ n → (f (l.drop k)).isSome = true →
      (tryDescend f n l).isSome = true := by
  intro n
  induction n with
  | zero =>
    intro k l hk h
    have hz : k = 0 := Nat.le_zero.mp hk
    subst hz
    simpa using h
  | succ m ih =>
    intro k l hk h
    unfold tryDescend
    rcases hf : f (l.drop (m + 1)) with _ | v
    · simp only []
      by_cases hkm : k = m + 1
      · subst hkm
        rw [hf] at h
        exact absurd h (by simp)
      · exact ih (by omega) h
    · simp

theorem take_all_of_le_takeWhile {p : Char → Bool} :
    ∀ {l : List Char} {k : Nat}, k ≤ (l.takeWhile p).length →
      (l.take k).all p = true := by
  intro l
  induction l with
  | nil =>
    intro k hk
    simp
  | cons c rest ih =>
    intro k hk
    by_cases hc : p c = true
    · rw [List.takeWhile_cons_of_pos hc] at hk
      cases k with
      | zero => rfl
      | succ j =>
        simp only [List.length_cons, Nat.succ_le_succ_iff] at hk
        simp [List.take_succ_cons, List.all_cons, hc, ih hk]
    · rw [List.takeWhile_cons_of_neg hc] at hk
      simp only [List.length_nil, Nat.le_zero] at hk
      subst hk
      rfl

theorem searchML_isSome_of_tryGreedy {α : Type} {f : List Char → Option α}
    {l : List Char} (h : (tryGreedyML f l).isSome = true) :
    (searchML f l).isSome = true := by
  rw [searchML_eq]
  rcases hg : tryGreedyML f l with _ | v
  · rw [hg] at h
    exact absurd h (by simp)
  · simp [hg]

theorem searchML_isSome_of_rest {α : Type} {f : List Char → Option α}
    {l rest : List Char} (hd : dropToAfterNewline l = some rest)
    (h : (searchML f rest).isSome = true) :
    (searchML f l).isSome = true := by
  rw [searchML_eq]
  rcases hg : tryGreedyML f l with _ | v
  · simp only [hg, hd]
    exact h
  · simp

theorem dropToAfterNewline_decomp {l B : List Char}
    (h : dropToAfterNewline l = some B) :
    ∃ A, l = A ++ '\n' :: B ∧ A.all (fun c => ¬ c = '\n') = true := by
  induction l with
  | nil => simp [dropToAfterNewline] at h
  | cons c rest ih =>
    unfold dropToAfterNewline at h
    by_cases hc : c = '\n'
    · rw [if_pos hc] at h
      simp only [Option.some.injEq] at h
      exact ⟨[], by simp [hc, h], rfl⟩
    · rw [if_neg hc] at h
      obtain ⟨A, hA, hall⟩ := ih h
      refine ⟨c :: A, by simp [hA], ?_⟩
      rw [List.all_cons]
      simp only [hall, Bool.and_true]
      simp [hc]

theorem capturedGo_lift {f : List Char → Option (List Char)} {ds B : List Char}
    (h : capturedUncommentedGo f ds true B = true) :
    ∀ (A : List Char) (flag : Bool),
      capturedUncommentedGo f ds flag (A ++ '\n' :: B) = true := by
  intro A
  induction A with
  | nil =>
    intro flag
    simp only [List.nil_append]
    unfold capturedUncommentedGo
    simp [h]
  | cons c A2 ih =>
    intro flag
    simp only [List.cons_append]
    unfold capturedUncommentedGo
    simp [ih]

theorem capturedGo_has {f : List Char → Option (List Char)} {ds : List Char} :
    ∀ (l : List Char) (flag : Bool),
      capturedUncommentedGo f ds flag l = true →
      hasUncommentedGo f flag l = true := by
  intro l
  induction l with
  | nil =>
    intro flag h
    unfold capturedUncommentedGo at h
    unfold hasUncommentedGo
    simp only [Bool.and_eq_true, decide_eq_true_eq] at h
    simp [h.1, h.2]
  | cons c rest ih =>
    intro flag h
    unfold capturedUncommentedGo at h
    unfold hasUncommentedGo
    simp only [Bool.or_eq_true, Bool.and_eq_true, decide_eq_true_eq] at h ⊢
    rcases h with ⟨hf, hv⟩ | h2
    · exact Or.inl ⟨hf, by simp [hv]⟩
    · exact Or.inr (ih _ h2)

theorem capturedGo_of_match {f : List Char → Option (List Char)}
    {ds : List Char} :
    ∀ (k : Nat) (l : List Char),
      (l.take k).all (fun c => ¬ c = '#') = true →
      f (l.drop k) = some ds → capturedUncommentedGo f ds true l = true := by
  intro k
  induction k with
  | zero =>
    intro l hall hf
    rw [List.drop_zero] at hf
    rcases l with _ | ⟨c, rest⟩
    · unfold capturedUncommentedGo
      simp [hf]
    · unfold capturedUncommentedGo
      simp [hf]
  | succ j ih =>
    intro l hall hf
    rcases l with _ | ⟨c, rest⟩
    · unfold capturedUncommentedGo
      simp only [List.drop_nil] at hf
      simp [hf]
    · rw [List.take_succ_cons] at hall
      simp only [List.all_cons, Bool.and_eq_true, decide_eq_true_eq] at hall
      rw [List.drop_succ_cons] at hf
      unfold capturedUncommentedGo
      simp only [Bool.or_eq_true]
      right
      have hflag : (if c = '\n' then true else true && !(c = '#')) = true := by
        by_cases hc : c = '\n' <;> simp [hc, hall.1]
      rw [hflag]
      exact ih rest hall.2 hf

theorem hasGo_false_cases {f : List Char → Option (List Char)} :
    ∀ (l : List Char), hasUncommentedGo f false l = true →
      ∃ B, dropToAfterNewline l = some B ∧
        hasUncommentedGo f true B = true := by
  intro l
  induction l with
  | nil =>
    intro h
    unfold hasUncommentedGo at h
    simp at h
  | cons c rest ih =>
    intro h
    unfold hasUncommentedGo at h
    simp only [Bool.false_and, Bool.false_or] at h
    by_cases hc : c = '\n'
    · rw [if_pos hc] at h
      exact ⟨rest, by simp [dropToAfterNewline, hc], h⟩
    · rw [if_neg hc] at h
      obtain ⟨B, hB, hgo⟩ := ih h
      exact ⟨B, by simp [dropToAfterNewline, hc, hB], hgo⟩

theorem searchML_shift {α : Type} {f : List Char → Option α} {c : Char}
    {rest : List Char} (hc1 : ¬ c = '#') (hc2 : ¬ c = '\n')
    (h : (searchML f rest).isSome = true) :
    (searchML f (c :: rest)).isSome = true := by
  rw [searchML_eq] at h
  rcases hg : tryGreedyML f rest with _ | v
  · rw [hg] at h
    rcases hd : dropToAfterNewline rest with _ | B
    · rw [hd] at h
      exact absurd h (by simp)
    · rw [hd] at h
      refine searchML_isSome_of_rest ?_ h
      simp [dropToAfterNewline, hc2, hd]
  · unfold tryGreedyML at hg
    obtain ⟨k, hk, hfk⟩ := tryDescend_some hg
    apply searchML_isSome_of_tryGreedy
    unfold tryGreedyML
    apply tryDescend_isSome_of (k := k + 1)
    · have hspan : ((c :: rest).takeWhile (fun ch => ¬ ch = '#')).length
          = ((rest).takeWhile (fun ch => ¬ ch = '#')).length + 1 := by
        rw [List.takeWhile_cons_of_pos (by simp [hc1])]
        simp
      rw [hspan]
      omega
    · rw [List.drop_succ_cons, hfk]
      rfl

theorem hasGo_true_searchML {f : List Char → Option (List Char)} :
    ∀ (n : Nat) (l : List Char), l.length ≤ n →
      hasUncommentedGo f true l = true → (searchML f l).isSome = true := by
  intro n
  induction n with
  | zero =>
    intro l hl h
    have hnil : l = [] := List.length_eq_zero.mp (Nat.le_zero.mp hl)
    subst hnil
    unfold hasUncommentedGo at h
    simp only [Bool.true_and] at h
    exact searchML_isSome_of_tryGreedy h
  | succ m ih =>
    intro l hl h
    rcases l with _ | ⟨c, rest⟩
    · unfold hasUncommentedGo at h
      simp only [Bool.true_and] at h
      exact searchML_isSome_of_tryGreedy h
    · unfold hasUncommentedGo at h
      simp only [Bool.true_and, Bool.or_eq_true] at h
      have hlen : rest.length ≤ m := by
        simp only [List.length_cons] at hl
        omega
      rcases h with h1 | h2
      · apply searchML_isSome_of_tryGreedy
        unfold tryGreedyML
        exact tryDescend_isSome_of (Nat.zero_le _) h1
      · by_cases hc : c = '\n'
        · rw [if_pos hc] at h2
          exact searchML_isSome_of_rest (by simp [dropToAfterNewline, hc])
            (ih rest hlen h2)
        · rw [if_neg hc] at h2
          by_cases hh : c = '#'
          · simp [hh] at h2
            obtain ⟨B, hB, hgo⟩ := hasGo_false_cases rest h2
            have hlenB : B.length ≤ m := by
              have h3 := dropToAfterNewline_length hB
              omega
            refine searchML_isSome_of_rest ?_ (ih B hlenB hgo)
            simp [dropToAfterNewline, hc, hB]
          · simp [hh] at h2
            exact searchML_shift hh hc (ih rest hlen h2)

theorem searchML_captured {f : List Char → Option (List Char)} :
    ∀ (n : Nat) (l ds : List Char), l.length ≤ n →
      searchML f l = some ds → capturedUncommented f ds l = true := by
  intro n
  induction n with
  | zero =>
    intro l ds hl h
    have hnil : l = [] := List.length_eq_zero.mp (Nat.le_zero.mp hl)
    subst hnil
    rw [searchML_eq] at h
    rcases hg : tryGreedyML f [] with _ | v
    · rw [hg] at h
      simp [dropToAfterNewline] at h
    · rw [hg] at h
      simp only [Option.some.injEq] at h
      subst h
      unfold capturedUncommented
      exact capturedGo_of_match 0 [] (by simp) hg
  | succ m ih =>
    intro l ds hl h
    rw [searchML_eq] at h
    rcases hg : tryGreedyML f l with _ | v
    · rw [hg] at h
      rcases hd : dropToAfterNewline l with _ | B
      · rw [hd] at h
        exact absurd h (by simp)
      · rw [hd] at h
        have hlenB : B.length ≤ m := by
          have h2 := dropToAfterNewline_length hd
          omega
        have hcap := ih B ds hlenB h
        obtain ⟨A, hA, hallA⟩ := dropToAfterNewline_decomp hd
        unfold capturedUncommented
        rw [hA]
        exact capturedGo_lift hcap A true
    · rw [hg] at h
      simp only [Option.some.injEq] at h
      subst h
      unfold tryGreedyML at hg
      obtain ⟨k, hk, hfk⟩ := tryDescend_some hg
      unfold capturedUncommented
      exact capturedGo_of_match k l (take_all_of_le_takeWhile hk) hfk

theorem searchML_isSome_iff {f : List Char → Option (List Char)}
    (l : List Char) :
    (searchML f l).isSome = hasUncommented f l := by
  cases hh : hasUncommented f l
  · rcases hs : searchML f l with _ | ds
    · rfl
    · have hcap := searchML_captured l.length l ds (Nat.le_refl _) hs
      have hhas := capturedGo_has l true hcap
      unfold hasUncommented at hh
      rw [hh] at hhas
      exact absurd hhas (by simp)
  · exact hasGo_true_searchML l.length l (Nat.le_refl _) hh

/-- C4: an rc marker is recognized exactly when it occurs at an offset whose
line is not prefixed by the comment character `'#'` — so a commented-out
marker is ignored — the digits returned always come from such an uncommented
occurrence, and the parsed versions of patch_doxyfile.py and check_version.py
carry the rc component exactly in that case. -/
theorem c4_uncommented_rc :
    (∀ (f : List Char → Option (List Char)) (content : List Char),
      (searchML f content).isSome = hasUncommented f content) ∧
    (∀ (f : List Char → Option (List Char)) (content ds : List Char),
      searchML f content = some ds →
      capturedUncommented f ds content = true) ∧
    (∀ content v : List Char, projectVersionSearch content = some v →
      (hasUncommented matchRcTailPrep content = false →
        doxParseCmakeVersion content = some v ∨
        doxParseCmakeVersion content = some (v ++ SNAPTAIL)) ∧
      (∀ ds, searchML matchRcTailPrep content = some ds →
        capturedUncommented matchRcTailPrep ds content = true ∧
        doxParseCmakeVersion content = some (v ++ '-' :: 'r' :: 'c' :: ds))) ∧
    (∀ content base : List Char, checkBase content = some base →
      (hasUncommented matchRcTailCheck content = false →
        checkParseCmakeVersion content = some base) ∧
      (∀ ds, searchML matchRcTailCheck content = some ds →
        capturedUncommented matchRcTailCheck ds content = true ∧
        checkParseCmakeVersion content
          = some (base ++ '-' :: 'r' :: 'c' :: ds))) := by
  have hnone : ∀ (f : List Char → Option (List Char)) (content : List Char),
      hasUncommented f content = false → searchML f content = none := by
    intro f content hfalse
    have hiff := searchML_isSome_iff (f := f) content
    rw [hfalse] at hiff
    rcases hs : searchML f content with _ | ds
    · rfl
    · rw [hs] at hiff
      exact absurd hiff (by simp)
  refine ⟨fun f content => searchML_isSome_iff content,
    fun f content ds h =>
      searchML_captured content.length content ds (Nat.le_refl _) h, ?_, ?_⟩
  · intro content v hv
    constructor
    · intro hfalse
      unfold doxParseCmakeVersion
      rw [hv, hnone _ _ hfalse]
      by_cases hp : packageSearch content = true
      · exact Or.inl (by simp [hp])
      · exact Or.inr (by simp [hp])
    · intro ds hds
      refine ⟨searchML_captured content.length content ds (Nat.le_refl _) hds, ?_⟩
      unfold doxParseCmakeVersion
      rw [hv, hds]
  · intro content base hb
    constructor
    · intro hfalse
      unfold checkParseCmakeVersion
      rw [hb, hnone _ _ hfalse]
    · intro ds hds
      refine ⟨searchML_captured content.length content ds (Nat.le_refl _) hds, ?_⟩
      unfold checkParseCmakeVersion
      rw [hb, hds]

/-- Witness for C4: a commented-out marker leaves the version without an rc
component; an active marker's digits are spliced in. -/
theorem c4_uncommented_rc_witness :
    ((searchML matchRcTailPrep
        "PROJECT(K VERSION 2.1.0)\n# SET(RC_VERSION \"9\")\n".data).isSome
      = hasUncommented matchRcTailPrep
        "PROJECT(K VERSION 2.1.0)\n# SET(RC_VERSION \"9\")\n".data) ∧
    (doxParseCmakeVersion
        "PROJECT(K VERSION 2.1.0)\n# SET(RC_VERSION \"9\")\n".data
      = some "2.1.0".data ∨
     doxParseCmakeVersion
        "PROJECT(K VERSION 2.1.0)\n# SET(RC_VERSION \"9\")\n".data
      = some ("2.1.0".data ++ SNAPTAIL)) ∧
    (capturedUncommented matchRcTailPrep "7".data
        "PROJECT(K VERSION 2.1.0)\nSET(RC_VERSION \"7\")\n".data = true ∧
     doxParseCmakeVersion
        "PROJECT(K VERSION 2.1.0)\nSET(RC_VERSION \"7\")\n".data
      = some ("2.1.0".data ++ '-' :: 'r' :: 'c' :: "7".data)) :=
  ⟨c4_uncommented_rc.1 matchRcTailPrep _,
    (c4_uncommented_rc.2.2.1
      "PROJECT(K VERSION 2.1.0)\n# SET(RC_VERSION \"9\")\n".data
      "2.1.0".data (by decide)).1 (by decide),
    (c4_uncommented_rc.2.2.1
      "PROJECT(K VERSION 2.1.0)\nSET(RC_VERSION \"7\")\n".data
      "2.1.0".data (by decide)).2 "7".data (by decide)⟩

end DocScripts
